import Mathlib

/-!
Shallow embedding of `rygorous/ukkonen` (src/main.rs), an online suffix-tree
builder (Ukkonen's algorithm) over a byte payload, together with proofs about
the claims of its specification.

Modelling conventions:
* Bytes are `Fin 256`; machine integers (`u32`, `usize`) are `Nat`, with an
  explicit `% 2^32` at the two places the source casts to `u32` (both casts
  are guarded by asserts, so the reduction is the identity there).
* Rust aborts (failed `assert!` / `debug_assert!`, the explicit abort on a
  bad suffix link, and out-of-bounds indexing) are modelled by an `Except`
  error naming the abort site.  `debug_assert!`s are checked: the crate in
  the repository is exercised in debug configuration, where they are live.
* The two source loops (the canonicalization loop and the suffix-extension
  loop of `update`) have no structural termination measure, so the model
  gives each a fuel parameter; running out of fuel is the distinguished
  error `Err.outOfFuel`.  Fuel is consumed only when a loop iterates.
* `Vec<Node>` is a `List Node`; the 256-entry child array is a function
  `Fin 256 → PackedRef`.  Index reads are checked (`Err.nodeOob` /
  `Err.payloadOob`), matching the panics of Rust index syntax; writes in the
  source always follow a successful read of the same index.
-/

/-- A payload byte (`u8` in the source). -/
abbrev Byte := Fin 256

/-- Abort sites of the source program (panics, asserts, debug-asserts) plus
the fuel sentinel of the model. -/
inductive Err where
  /-- `assert!(pos <= u32::MAX)` in `PackedPos::from` failed. -/
  | posTooBig
  /-- `assert!(ind <= MAX_IND)` in `PackedRef::from_inner` / `from_leaf` failed. -/
  | refTooBig
  /-- `payload[i]` out of bounds. -/
  | payloadOob
  /-- `nodes[i]` out of bounds. -/
  | nodeOob
  /-- `debug_assert!(idx != 0, "canonicalize should only follow real links")` failed. -/
  | canonLinkZero
  /-- `debug_assert!(!edge_ref.is_none())` failed. -/
  | edgeRefNone
  /-- `debug_assert!(child slot is none)` before attaching a new leaf failed. -/
  | leafSlotTaken
  /-- the abort `Suffix links must be to inner nodes!`. -/
  | suffixNotInner
  /-- model-only: loop fuel exhausted. -/
  | outOfFuel
deriving DecidableEq, Repr

/-- `struct PackedPos(u32)`: a payload position packed into a `u32`. -/
structure PackedPos where
  val : Nat
deriving DecidableEq, Repr

/-- `std::u32::MAX`. -/
def u32Max : Nat := 2 ^ 32 - 1

/-- `PackedPos::from(pos)`: asserts `pos <= u32::MAX`, then casts to `u32`. -/
def PackedPos.from (pos : Nat) : Except Err PackedPos :=
  if pos ≤ u32Max then .ok ⟨pos % 2 ^ 32⟩ else .error .posTooBig

/-- `PackedPos::unpack`: the stored position as `usize`. -/
def PackedPos.unpack (p : PackedPos) : Nat := p.val

/-- `enum NodeRef { Leaf(usize), Inner(usize) }`. -/
inductive NodeRef where
  | Leaf (pos : Nat)
  | Inner (ind : Nat)
deriving DecidableEq, Repr

/-- `struct PackedRef(u32)`: a tagged node reference packed into a `u32`
(low bit is the leaf/inner tag, the payload is shifted up by one). -/
structure PackedRef where
  val : Nat
deriving DecidableEq, Repr

/-- `PackedRef::MAX_IND = (u32::MAX / 2) as usize`. -/
def PackedRef.MAX_IND : Nat := u32Max / 2

/-- `PackedRef::from_inner(ind)`: asserts `ind <= MAX_IND`, packs `ind*2 + 0`. -/
def PackedRef.from_inner (ind : Nat) : Except Err PackedRef :=
  if ind ≤ PackedRef.MAX_IND then .ok ⟨(ind * 2 + 0) % 2 ^ 32⟩ else .error .refTooBig

/-- `PackedRef::from_leaf(pos)`: asserts `pos <= MAX_IND`, packs `pos*2 + 1`. -/
def PackedRef.from_leaf (pos : Nat) : Except Err PackedRef :=
  if pos ≤ PackedRef.MAX_IND then .ok ⟨(pos * 2 + 1) % 2 ^ 32⟩ else .error .refTooBig

/-- `PackedRef::unpack`: `self.0 & 1` selects the tag, `self.0 >> 1` the value. -/
def PackedRef.unpack (r : PackedRef) : NodeRef :=
  if r.val % 2 = 0 then .Inner (r.val / 2) else .Leaf (r.val / 2)

/-- `PackedRef::is_none`: the all-zero reference is the absent sentinel. -/
def PackedRef.is_none (r : PackedRef) : Bool := r.val == 0

/-- `struct Node`: an internal node.  The incoming edge label is
`payload[begin..end)`; `suffix` is the suffix link; `child` is the
256-entry child table. -/
structure Node where
  begin : PackedPos
  «end» : PackedPos
  suffix : PackedRef
  child : Byte → PackedRef

/-- `Node::new_special(begin, end, suffix_ind, child_ind)`. -/
def Node.new_special (b e suffix_ind child_ind : Nat) : Except Err Node := do
  let bp ← PackedPos.from b
  let ep ← PackedPos.from e
  let s ← PackedRef.from_inner suffix_ind
  let c ← PackedRef.from_inner child_ind
  .ok { begin := bp, «end» := ep, suffix := s, child := fun _ => c }

/-- `Node::new(begin, end, suffix_ind)` = `new_special(begin, end, suffix_ind, 0)`. -/
def Node.new (b e suffix_ind : Nat) : Except Err Node :=
  Node.new_special b e suffix_ind 0

/-- `Node::label_len = end.unpack() - begin.unpack()` (usize subtraction; in
every reachable state the tree invariant `begin ≤ end` makes the `Nat`
truncation agree with it). -/
def Node.label_len (n : Node) : Nat := n.«end».unpack - n.begin.unpack

/-- `struct Cursor { node, pos }`: the active point. -/
structure Cursor where
  node : Nat
  pos : Nat
deriving DecidableEq, Repr

/-- `struct SuffixTree`: the borrowed payload plus the node arena. -/
structure SuffixTree where
  payload : List Byte
  nodes : List Node

/-- Checked `self.payload[i]` (Rust index syntax panics out of bounds). -/
def SuffixTree.getPayload (st : SuffixTree) (i : Nat) : Except Err Byte :=
  match st.payload.get? i with
  | some b => .ok b
  | none => .error .payloadOob

/-- Checked `self.nodes[i]` read. -/
def SuffixTree.getNode (st : SuffixTree) (i : Nat) : Except Err Node :=
  match st.nodes.get? i with
  | some nd => .ok nd
  | none => .error .nodeOob

/-- `self.nodes[i] = nd` (in the source every write is to an index that was
just read successfully, so the write itself cannot go out of bounds). -/
def SuffixTree.setNode (st : SuffixTree) (i : Nat) (nd : Node) : SuffixTree :=
  { st with nodes := st.nodes.set i nd }

/-- The canonicalization loop of `update` (`while cur.pos < new_end { ... }`):
follow the child edge selected by `payload[cur.pos]` while the remaining
span covers the child's whole label, descending into inner nodes.  Fuel is
spent once per descent. -/
def SuffixTree.canonicalize (st : SuffixTree) (new_end : Nat) :
    Nat → Cursor → Except Err Cursor
  | fuel, cur =>
    if cur.pos < new_end then do
      let link_ch ← st.getPayload cur.pos
      let nd ← st.getNode cur.node
      match (nd.child link_ch).unpack with
      | .Leaf _ =>
        -- leaves absorb the entire rest of the string; stop
        .ok cur
      | .Inner idx =>
        -- debug_assert!(idx != 0, "canonicalize should only follow real links")
        if idx = 0 then .error .canonLinkZero
        else do
          let nd2 ← st.getNode idx
          let len := nd2.label_len
          if len > new_end - cur.pos then
            -- label extends past the characters we currently have; stop
            .ok cur
          else
            match fuel with
            | 0 => .error .outOfFuel
            | fuel' + 1 => st.canonicalize new_end fuel' ⟨idx, cur.pos + len⟩
    else .ok cur

/-- The tail of one iteration of the extension loop: chain the suffix link of
the previous insertion point, attach the new leaf below `insert_node_idx`,
and follow the suffix link of the active node.  Returns the state, the
cursor and the insertion point for the next iteration. -/
def SuffixTree.updateTail (st : SuffixTree) (new_end : Nat) (new_ch : Byte)
    (cur : Cursor) (insert_node_idx prev_insert_idx : Nat) :
    Except Err (SuffixTree × Cursor × Nat) := do
  -- self.nodes[prev_insert_idx].suffix = PackedRef::from_inner(insert_node_idx)
  let np ← st.getNode prev_insert_idx
  let rs ← PackedRef.from_inner insert_node_idx
  let st1 := st.setNode prev_insert_idx { np with suffix := rs }
  -- debug_assert!(self.nodes[insert_node_idx].child[new_ch].is_none())
  let ni ← st1.getNode insert_node_idx
  if (ni.child new_ch).is_none = false then .error .leafSlotTaken
  else do
    -- self.nodes[insert_node_idx].child[new_ch] = PackedRef::from_leaf(new_end)
    let rl ← PackedRef.from_leaf new_end
    let st2 := st1.setNode insert_node_idx
      { ni with child := fun c => if c = new_ch then rl else ni.child c }
    -- follow the suffix link of the active node
    let nc ← st2.getNode cur.node
    match nc.suffix.unpack with
    | .Inner idx => .ok (st2, ⟨idx, cur.pos⟩, insert_node_idx)
    | .Leaf _ => .error .suffixNotInner

/-- The body of one iteration of the extension loop of `update`, after the
canonicalization: either stop the phase (Rule 3), returning `.inl` with the
result, or insert the pending suffix's leaf — splitting the edge when the
active point is mid-edge — and return `.inr` with the state, cursor and
insertion point for the next iteration. -/
def SuffixTree.phaseStep (st : SuffixTree) (new_end : Nat) (new_ch : Byte)
    (cur : Cursor) (prev_insert_idx : Nat) :
    Except Err ((SuffixTree × Cursor) ⊕ (SuffixTree × Cursor × Nat)) := do
  if cur.pos = new_end then do
    -- would insert right below the active node
    let nd ← st.getNode cur.node
    if (nd.child new_ch).is_none = false then
      -- we have this character already; stop the phase
      .ok (.inl (st, cur))
    else do
      -- insert right below the current node
      let t ← st.updateTail new_end new_ch cur cur.node prev_insert_idx
      .ok (.inr t)
  else do
    -- we are in the middle of a longer label
    let edge_select_ch ← st.getPayload cur.pos
    let nd ← st.getNode cur.node
    let edge_ref := nd.child edge_select_ch
    -- debug_assert!(!edge_ref.is_none())
    if edge_ref.is_none then .error .edgeRefNone
    else do
      let edge_label_begin ←
        match edge_ref.unpack with
        | .Leaf pos => .ok pos
        | .Inner idx => do
          let n ← st.getNode idx
          .ok n.begin.unpack
      let cur_label_pos := edge_label_begin + new_end - cur.pos
      let cur_label_ch ← st.getPayload cur_label_pos
      if new_ch = cur_label_ch then
        -- next character of the edge label matches; stop the phase
        .ok (.inl (st, cur))
      else do
        -- split the edge
        let n ← Node.new edge_label_begin cur_label_pos 1
        let (stA, transfer) ←
          match edge_ref.unpack with
          | .Leaf _ => do
            let r ← PackedRef.from_leaf cur_label_pos
            (.ok (st, r) : Except Err (SuffixTree × PackedRef))
          | .Inner idx => do
            -- shorten the inner target's edge label
            let ni ← st.getNode idx
            let bp ← PackedPos.from cur_label_pos
            let r ← PackedRef.from_inner idx
            .ok (st.setNode idx { ni with begin := bp }, r)
        let n := { n with child := fun c => if c = cur_label_ch then transfer else n.child c }
        let new_node_idx := stA.nodes.length
        let stB := { stA with nodes := stA.nodes ++ [n] }
        -- link the new node right below the active node
        let ndc ← stB.getNode cur.node
        let rn ← PackedRef.from_inner new_node_idx
        let stC := stB.setNode cur.node
          { ndc with child := fun c => if c = edge_select_ch then rn else ndc.child c }
        let t ← stC.updateTail new_end new_ch cur new_node_idx prev_insert_idx
        .ok (.inr t)

/-- The extension loop of `update` (`loop { ... }`): canonicalize, run the
iteration body, and continue until a Rule-3 stop. -/
def SuffixTree.updateLoop (cfuel new_end : Nat) (new_ch : Byte) :
    Nat → SuffixTree → Cursor → Nat → Except Err (SuffixTree × Cursor)
  | 0, _, _, _ => .error .outOfFuel
  | fuel + 1, st, cur0, prev_insert_idx => do
    let cur ← st.canonicalize new_end cfuel cur0
    let r ← st.phaseStep new_end new_ch cur prev_insert_idx
    match r with
    | .inl res => .ok res
    | .inr (st', cur', prev') => SuffixTree.updateLoop cfuel new_end new_ch fuel st' cur' prev'

/-- `SuffixTree::update(cur_in, new_end)`: one phase of Ukkonen's algorithm,
inserting all pending suffixes after the character at `new_end` is appended. -/
def SuffixTree.update (st : SuffixTree) (cfuel fuel : Nat) (cur_in : Cursor)
    (new_end : Nat) : Except Err (SuffixTree × Cursor) := do
  let new_ch ← st.getPayload new_end
  st.updateLoop cfuel new_end new_ch fuel cur_in 0

/-- The initialization of `SuffixTree::from`: the two sentinel nodes.  Node 0
("top") has every child slot pointing at node 1; node 1 ("root") is set up so
that traversing top → root consumes exactly one character. -/
def SuffixTree.init (payload : List Byte) : Except Err SuffixTree := do
  let top ← Node.new_special 0 0 0 1
  let root ← Node.new 0 1 0
  .ok { payload := payload, nodes := [top, root] }

/-- The fold of `SuffixTree::from`: feed each position in turn to `update`,
threading the state and cursor. -/
def SuffixTree.buildSteps (cfuel fuel : Nat) :
    List Nat → SuffixTree × Cursor → Except Err (SuffixTree × Cursor)
  | [], sc => .ok sc
  | p :: ps, sc => do
    let sc' ← sc.1.update cfuel fuel sc.2 p
    SuffixTree.buildSteps cfuel fuel ps sc'

/-- `SuffixTree::from(payload)`: build the suffix tree of `payload`. -/
def SuffixTree.from (payload : List Byte) (cfuel fuel : Nat) :
    Except Err SuffixTree := do
  let st ← SuffixTree.init payload
  let (st', _) ← SuffixTree.buildSteps cfuel fuel (List.range payload.length) (st, ⟨1, 0⟩)
  .ok st'

/-! ## Observations on a finished tree

The notions the specification's testable properties speak about: following
child edges from the root by their key bytes, concatenating edge labels, and
collecting the leaf references of the arena.  (The source's only consumer of
the finished tree, `print_rec`, resolves a leaf reference `Leaf(pos)` into
`payload[pos..cur_end]`, which fixes the meaning of a leaf's label.) -/

/-- `payload[a..b)` as a list (empty when `a ≥ b`, truncated at the end). -/
def payloadSlice (p : List Byte) (a b : Nat) : List Byte :=
  (p.drop a).take (b - a)

/-- Follow inner child edges from node `v` keyed by the given bytes. -/
def SuffixTree.descend (st : SuffixTree) : Nat → List Byte → Option Nat
  | v, [] => some v
  | v, c :: cs =>
    match st.nodes.get? v with
    | none => none
    | some nd =>
      if (nd.child c).is_none then none
      else
        match (nd.child c).unpack with
        | .Inner w => st.descend w cs
        | .Leaf _ => none

/-- Concatenation of the edge labels entered while descending from `v` along
the given key bytes (garbage-in gives `[]`; only used on valid descents). -/
def SuffixTree.spellAlong (st : SuffixTree) : Nat → List Byte → List Byte
  | _, [] => []
  | v, c :: cs =>
    match st.nodes.get? v with
    | none => []
    | some nd =>
      match (nd.child c).unpack with
      | .Inner w =>
        match st.nodes.get? w with
        | none => []
        | some ndw => payloadSlice st.payload ndw.begin.val ndw.«end».val ++ st.spellAlong w cs
      | .Leaf _ => []

/-- Every leaf reference of the arena, as `(node index, child key, stored offset)`. -/
def SuffixTree.allLeafSlots (st : SuffixTree) : List (Nat × Byte × Nat) :=
  (st.nodes.enum.map fun p =>
    (List.finRange 256).filterMap fun c =>
      match (p.2.child c).unpack with
      | .Leaf o => some (p.1, c, o)
      | .Inner _ => none).flatten

/-- Locate the leaf reference reached by descending along `ks` from the root
and then reading the child slot keyed `c`: returns `(node index, offset)`. -/
def SuffixTree.slotAt (st : SuffixTree) (ks : List Byte) (c : Byte) : Option (Nat × Nat) :=
  match st.descend 1 ks with
  | none => none
  | some v =>
    match st.nodes.get? v with
    | none => none
    | some nd =>
      match (nd.child c).unpack with
      | .Leaf o => some (v, o)
      | .Inner _ => none

/-- `o` is `some` value satisfying `P`. -/
def optionHolds {α : Type} (o : Option α) (P : α → Prop) : Prop :=
  match o with
  | some a => P a
  | none => False

/-! ## Invariants -/

/-- Every node's suffix-link field carries an even packed value, i.e. decodes
to an `Inner` reference.  (Both writers of the field, `Node::new_special` and
the chaining step of `update`, go through `PackedRef::from_inner`.) -/
def SuffixTree.evenSuffix (st : SuffixTree) : Prop :=
  ∀ nd ∈ st.nodes, nd.suffix.val % 2 = 0

/-- The sentinel-node invariant: node 0 ("top") exists and each of its 256
child slots holds the packed reference `2` (= `Inner 1`, the root); node 1
("root") exists with label range `[0, 1)`; and no node other than node 0 has
a child slot holding `Inner 1`. -/
def SuffixTree.sentinelInv (st : SuffixTree) : Prop :=
  2 ≤ st.nodes.length ∧
  (∀ nd, st.nodes.get? 0 = some nd → ∀ c : Byte, nd.child c = ⟨2⟩) ∧
  (∀ nd, st.nodes.get? 1 = some nd → nd.begin.val = 0 ∧ nd.«end».val = 1) ∧
  (∀ p ∈ st.nodes.enum, 1 ≤ p.1 → ∀ c : Byte, p.2.child c ≠ ⟨2⟩)

/-- Per-child-slot consistency of edge labels, relative to a string-depth
assignment `d`: a non-absent slot keyed `c` of node `v` either holds an inner
node `j` whose label is nonempty, starts with `c`, lies inside the payload,
continues the path slice of `v`, and has `d j` accounting for it — or holds a
leaf whose offset is inside the payload, whose byte is `c`, and whose start
continues the path slice of `v`.  The path slice of a node `v` of depth
`d v` is `payload[end_v - d v .. end_v)`. -/
def SuffixTree.childOk (st : SuffixTree) (d : Nat → Nat) (v : Nat) (nd : Node) (c : Byte) : Prop :=
  if (nd.child c).is_none then True
  else
    match (nd.child c).unpack with
    | .Inner j =>
      1 ≤ j ∧
      optionHolds (st.nodes.get? j) fun ndj =>
        1 ≤ ndj.label_len ∧
        ndj.begin.val ≤ ndj.«end».val ∧
        ndj.«end».val ≤ st.payload.length ∧
        d v ≤ ndj.begin.val ∧
        d j = d v + ndj.label_len ∧
        st.payload.get? ndj.begin.val = some c ∧
        payloadSlice st.payload (ndj.begin.val - d v) ndj.begin.val
          = payloadSlice st.payload (nd.«end».val - d v) nd.«end».val
    | .Leaf o =>
      d v ≤ o ∧ o < st.payload.length ∧
      st.payload.get? o = some c ∧
      payloadSlice st.payload (o - d v) o
        = payloadSlice st.payload (nd.«end».val - d v) nd.«end».val

/-- Edge-label consistency of a whole tree relative to a depth assignment
`d`: the root has depth 0 and every child slot of every node of index ≥ 1 is
consistent.  (Node 0 is the synthetic "parent of the root" and is exempt.) -/
def SuffixTree.EdgeConsistent (st : SuffixTree) (d : Nat → Nat) : Prop :=
  d 1 = 0 ∧ ∀ p ∈ st.nodes.enum, 1 ≤ p.1 → ∀ c : Byte, st.childOk d p.1 p.2 c

/-! ## Concrete inputs used by witnesses and counterexamples -/

/-- The payload `"aab"`. -/
def aabPayload : List Byte := [97, 97, 98]

/-- The tree the model builds for `"aab"`. -/
def aabTree : SuffixTree :=
  match SuffixTree.from aabPayload 16 16 with
  | .ok st => st
  | .error _ => { payload := [], nodes := [] }

/-- The payload `"ab"`. -/
def abPayload : List Byte := [97, 98]

/-- The tree the model builds for `"ab"`. -/
def abTree : SuffixTree :=
  match SuffixTree.from abPayload 16 16 with
  | .ok st => st
  | .error _ => { payload := [], nodes := [] }

/-- A one-node state whose only node has an absent child slot for every byte:
feeding it to the canonicalization loop exercises the absent-child case. -/
def absentChildState : SuffixTree :=
  { payload := [97],
    nodes := [{ begin := ⟨0⟩, «end» := ⟨0⟩, suffix := ⟨0⟩, child := fun _ => ⟨0⟩ }] }

/-- The payload `"aa"`. -/
def aaPayload : List Byte := [97, 97]

/-- The fallback node used when an extraction below fails. -/
def fallbackNode : Node :=
  { begin := ⟨0⟩, «end» := ⟨0⟩, suffix := ⟨0⟩, child := fun _ => ⟨0⟩ }

/-- The state and cursor after the first phase of the build for `"aa"`. -/
def aaMid : SuffixTree × Cursor :=
  match SuffixTree.init aaPayload with
  | .ok st0 =>
    match st0.update 16 16 ⟨1, 0⟩ 0 with
    | .ok sc => sc
    | .error _ => (st0, ⟨1, 0⟩)
  | .error _ => ({ payload := [], nodes := [] }, ⟨1, 0⟩)

/-- The root node of the `aaMid` state. -/
def aaMidRoot : Node :=
  match aaMid.1.getNode 1 with
  | .ok nd => nd
  | .error _ => fallbackNode

/-- String depths for the nodes of `aabTree` (node 2 spells `"a"`). -/
def aabDepth : Nat → Nat := fun v => if v = 2 then 1 else 0

/-- The state and cursor after the first two phases of the build for `"aab"`
(the third phase performs an edge split). -/
def aabMid2 : SuffixTree × Cursor :=
  match SuffixTree.init aabPayload with
  | .ok st0 =>
    match SuffixTree.buildSteps 16 16 [0, 1] (st0, ⟨1, 0⟩) with
    | .ok sc => sc
    | .error _ => (st0, ⟨1, 0⟩)
  | .error _ => ({ payload := [], nodes := [] }, ⟨1, 0⟩)

/-- Node 0 ("top") of `aabTree`. -/
def aabTop : Node :=
  match aabTree.getNode 0 with
  | .ok nd => nd
  | .error _ => fallbackNode

/-- Node 1 ("root") of `aabTree`. -/
def aabRoot : Node :=
  match aabTree.getNode 1 with
  | .ok nd => nd
  | .error _ => fallbackNode

/-- The frame relation of C7: the arena may only grow, every existing node
survives at its index, its `end` field is unchanged, and its `begin` field
never decreases. -/
def frameLe (st st' : SuffixTree) : Prop :=
  st.nodes.length ≤ st'.nodes.length ∧
  ∀ i nd, st.nodes.get? i = some nd →
    ∃ nd', st'.nodes.get? i = some nd' ∧
      nd'.«end» = nd.«end» ∧ nd.begin.val ≤ nd'.begin.val

/-! ## Decidability helpers -/

instance instDecidableOptionForallSome {α : Type} (o : Option α) (P : α → Prop)
    [dp : ∀ a, Decidable (P a)] : Decidable (∀ a, o = some a → P a) :=
  match o with
  | none => isTrue fun _ h => nomatch h
  | some x =>
    match dp x with
    | isTrue hx => isTrue fun _ h => Option.some.inj h ▸ hx
    | isFalse hx => isFalse fun h => hx (h x rfl)

instance instDecidableOptionHolds {α : Type} (o : Option α) (P : α → Prop)
    [dp : ∀ a, Decidable (P a)] : Decidable (optionHolds o P) :=
  match o with
  | none => isFalse fun h => h
  | some x => match dp x with
    | isTrue hx => isTrue hx
    | isFalse hx => isFalse hx

instance instDecidableChildOk (st : SuffixTree) (d : Nat → Nat) (v : Nat) (nd : Node)
    (c : Byte) : Decidable (st.childOk d v nd c) := by
  unfold SuffixTree.childOk
  split
  · exact inferInstance
  · split <;> exact inferInstance

instance instDecidableEdgeConsistent (st : SuffixTree) (d : Nat → Nat) :
    Decidable (st.EdgeConsistent d) := by
  unfold SuffixTree.EdgeConsistent
  exact inferInstance

instance instDecidableSentinelInv (st : SuffixTree) : Decidable st.sentinelInv := by
  unfold SuffixTree.sentinelInv
  exact inferInstance

instance instDecidableEvenSuffix (st : SuffixTree) : Decidable st.evenSuffix := by
  unfold SuffixTree.evenSuffix
  exact inferInstance

/-! ## General lemmas about the `Except` monad and the encodings -/

@[simp]
theorem ok_bind {α β : Type} (a : α) (f : α → Except Err β) :
    (Except.ok a >>= f) = f a := rfl

@[simp]
theorem error_bind {α β : Type} (e : Err) (f : α → Except Err β) :
    ((Except.error e : Except Err α) >>= f) = Except.error e := rfl

theorem pow32 : (2 : Nat) ^ 32 = 4294967296 := by norm_num

theorem maxInd_eq : PackedRef.MAX_IND = 2147483647 := by
  simp [PackedRef.MAX_IND, u32Max, pow32]

/-- Successful `from_inner` stores the doubled index exactly. -/
theorem from_inner_ok {i : Nat} (hi : i ≤ PackedRef.MAX_IND) :
    PackedRef.from_inner i = .ok ⟨i * 2⟩ := by
  rw [maxInd_eq] at hi
  rw [PackedRef.from_inner, if_pos (by rw [maxInd_eq]; omega)]
  have : (i * 2 + 0) % 2 ^ 32 = i * 2 := by rw [pow32]; omega
  rw [this]

/-- Successful `from_leaf` stores one more than the doubled offset exactly. -/
theorem from_leaf_ok {p : Nat} (hp : p ≤ PackedRef.MAX_IND) :
    PackedRef.from_leaf p = .ok ⟨p * 2 + 1⟩ := by
  rw [maxInd_eq] at hp
  rw [PackedRef.from_leaf, if_pos (by rw [maxInd_eq]; omega)]
  have : (p * 2 + 1) % 2 ^ 32 = p * 2 + 1 := by rw [pow32]; omega
  rw [this]

theorem unpack_double (i : Nat) : PackedRef.unpack ⟨i * 2⟩ = .Inner i := by
  have hv : (⟨i * 2⟩ : PackedRef).val = i * 2 := rfl
  rw [PackedRef.unpack, hv]
  rw [if_pos (by omega)]
  congr 1
  omega

theorem unpack_double_succ (p : Nat) : PackedRef.unpack ⟨p * 2 + 1⟩ = .Leaf p := by
  have hv : (⟨p * 2 + 1⟩ : PackedRef).val = p * 2 + 1 := rfl
  rw [PackedRef.unpack, hv]
  rw [if_neg (by omega)]
  congr 1
  omega

/-- C5 — counterexample.  The absent sentinel is *not* distinct from every
encoded value: `from_inner 0` succeeds and returns exactly the packed value
`0`, the sentinel, on which `is_none` answers `true`. -/
theorem c5_counterexample :
    PackedRef.from_inner 0 = .ok ⟨0⟩ ∧ PackedRef.is_none ⟨0⟩ = true :=
  ⟨rfl, rfl⟩

/-- C5 (amended): decoding is the exact inverse of encoding — for every
in-range index, `unpack (from_inner i) = Inner i` and
`unpack (from_leaf p) = Leaf p` — and `is_none` holds for the sentinel `0`;
but the sentinel coincides with `from_inner 0` (the encoding of inner node
0), so `is_none` is true on `from_inner i` exactly when `i = 0`, and false
on every `from_leaf p`. -/
theorem c5_pack_roundtrip :
    (∀ i r, i ≤ (2 ^ 32 - 1) / 2 → PackedRef.from_inner i = .ok r →
      r.unpack = .Inner i ∧ (r.is_none = true ↔ i = 0)) ∧
    (∀ p r, p ≤ (2 ^ 32 - 1) / 2 → PackedRef.from_leaf p = .ok r →
      r.unpack = .Leaf p ∧ r.is_none = false) ∧
    PackedRef.is_none ⟨0⟩ = true := by
  refine ⟨?_, ?_, rfl⟩
  · intro i r hi h
    rw [from_inner_ok (by rw [maxInd_eq, pow32] at *; omega)] at h
    obtain rfl : (⟨i * 2⟩ : PackedRef) = r := Except.ok.inj h
    refine ⟨unpack_double i, ?_⟩
    simp only [PackedRef.is_none, beq_iff_eq]
    omega
  · intro p r hp h
    rw [from_leaf_ok (by rw [maxInd_eq, pow32] at *; omega)] at h
    obtain rfl : (⟨p * 2 + 1⟩ : PackedRef) = r := Except.ok.inj h
    refine ⟨unpack_double_succ p, ?_⟩
    simp only [PackedRef.is_none, beq_eq_false_iff_ne, ne_eq]
    omega

/-- Witness for `c5_pack_roundtrip` at `i = 1` and `p = 3`. -/
theorem c5_pack_roundtrip_witness :
    (PackedRef.unpack ⟨2⟩ = .Inner 1 ∧ (PackedRef.is_none ⟨2⟩ = true ↔ (1 : Nat) = 0)) ∧
    (PackedRef.unpack ⟨7⟩ = .Leaf 3 ∧ PackedRef.is_none ⟨7⟩ = false) :=
  ⟨c5_pack_roundtrip.1 1 ⟨2⟩ (by norm_num) rfl,
   c5_pack_roundtrip.2.1 3 ⟨7⟩ (by norm_num) rfl⟩

/-- C9: the encoding constructors fail fast rather than wrapping.
`PackedPos::from` aborts exactly above `2^32 - 1`; `from_inner` and
`from_leaf` abort exactly above `(2^32 - 1) / 2`; a successful encoding
stores the argument exactly (decoding returns it unchanged), so no
out-of-range value is silently truncated. -/
theorem c9_encode_bounds :
    (∀ pos, pos ≤ 2 ^ 32 - 1 → PackedPos.from pos = .ok ⟨pos⟩) ∧
    (∀ pos, 2 ^ 32 - 1 < pos → PackedPos.from pos = .error .posTooBig) ∧
    (∀ i, i ≤ (2 ^ 32 - 1) / 2 → ∃ r, PackedRef.from_inner i = .ok r ∧ r.unpack = .Inner i) ∧
    (∀ i, (2 ^ 32 - 1) / 2 < i → PackedRef.from_inner i = .error .refTooBig) ∧
    (∀ p, p ≤ (2 ^ 32 - 1) / 2 → ∃ r, PackedRef.from_leaf p = .ok r ∧ r.unpack = .Leaf p) ∧
    (∀ p, (2 ^ 32 - 1) / 2 < p → PackedRef.from_leaf p = .error .refTooBig) := by
  refine ⟨?_, ?_, ?_, ?_, ?_, ?_⟩
  · intro pos h
    rw [PackedPos.from, if_pos (by simpa [u32Max] using h)]
    have : pos % 2 ^ 32 = pos := by rw [pow32] at *; omega
    rw [this]
  · intro pos h
    rw [PackedPos.from, if_neg (by simp only [u32Max]; omega)]
  · intro i hi
    refine ⟨⟨i * 2⟩, from_inner_ok (by rw [maxInd_eq, pow32] at *; omega), unpack_double i⟩
  · intro i hi
    rw [PackedRef.from_inner, if_neg (by rw [maxInd_eq]; rw [pow32] at hi; omega)]
  · intro p hp
    refine ⟨⟨p * 2 + 1⟩, from_leaf_ok (by rw [maxInd_eq, pow32] at *; omega), unpack_double_succ p⟩
  · intro p hp
    rw [PackedRef.from_leaf, if_neg (by rw [maxInd_eq]; rw [pow32] at hp; omega)]

/-- Witness for `c9_encode_bounds` at concrete in- and out-of-range inputs. -/
theorem c9_encode_bounds_witness :
    PackedPos.from 7 = .ok ⟨7⟩ ∧
    PackedPos.from (2 ^ 32) = .error .posTooBig ∧
    (∃ r, PackedRef.from_inner 5 = .ok r ∧ r.unpack = .Inner 5) ∧
    PackedRef.from_inner (2 ^ 31) = .error .refTooBig ∧
    (∃ r, PackedRef.from_leaf 6 = .ok r ∧ r.unpack = .Leaf 6) ∧
    PackedRef.from_leaf (2 ^ 31) = .error .refTooBig :=
  ⟨c9_encode_bounds.1 7 (by norm_num),
   c9_encode_bounds.2.1 (2 ^ 32) (by norm_num),
   c9_encode_bounds.2.2.1 5 (by norm_num),
   c9_encode_bounds.2.2.2.1 (2 ^ 31) (by norm_num),
   c9_encode_bounds.2.2.2.2.1 6 (by norm_num),
   c9_encode_bounds.2.2.2.2.2 (2 ^ 31) (by norm_num)⟩

/-! ## C3: the canonicalization loop's step relation -/

set_option smartUnfolding false in
/-- C3 — counterexample.  On a state whose active node's child slot for the
looked-up byte is absent, the canonicalization loop does not stop: it fails
the `canonicalize should only follow real links` debug assertion (the absent
sentinel decodes as inner node 0). -/
theorem c3_counterexample :
    (∀ nd, absentChildState.nodes.get? 0 = some nd → (nd.child 97).is_none = true) ∧
    absentChildState.getPayload 0 = .ok 97 ∧
    absentChildState.canonicalize 1 8 ⟨0, 0⟩ = .error .canonLinkZero :=
  ⟨by decide, rfl, rfl⟩

/-- C3 (amended): while `cursor.pos < new_end` the loop looks up the child of
`cursor.node` keyed by `payload[cursor.pos]`; it stops if that child is a
leaf; if the child is absent it does not stop but fails the
`canonicalize should only follow real links` assertion; it stops if the child
is an inner node whose label length exceeds `new_end - cursor.pos`; otherwise
it descends to the child, adds the child's label length to `cursor.pos`, and
repeats; `cursor.pos` never decreases. -/
theorem c3_canonicalize_steps (st : SuffixTree) (new_end : Nat) :
    (∀ fuel cur, new_end ≤ cur.pos →
       st.canonicalize new_end fuel cur = .ok cur) ∧
    (∀ fuel cur ch nd o, cur.pos < new_end →
       st.getPayload cur.pos = .ok ch → st.getNode cur.node = .ok nd →
       (nd.child ch).unpack = .Leaf o →
       st.canonicalize new_end fuel cur = .ok cur) ∧
    (∀ fuel cur ch nd, cur.pos < new_end →
       st.getPayload cur.pos = .ok ch → st.getNode cur.node = .ok nd →
       (nd.child ch).is_none = true →
       st.canonicalize new_end fuel cur = .error .canonLinkZero) ∧
    (∀ fuel cur ch nd idx nd2, cur.pos < new_end →
       st.getPayload cur.pos = .ok ch → st.getNode cur.node = .ok nd →
       (nd.child ch).unpack = .Inner idx → idx ≠ 0 →
       st.getNode idx = .ok nd2 → new_end - cur.pos < nd2.label_len →
       st.canonicalize new_end fuel cur = .ok cur) ∧
    (∀ fuel cur ch nd idx nd2, cur.pos < new_end →
       st.getPayload cur.pos = .ok ch → st.getNode cur.node = .ok nd →
       (nd.child ch).unpack = .Inner idx → idx ≠ 0 →
       st.getNode idx = .ok nd2 → nd2.label_len ≤ new_end - cur.pos →
       st.canonicalize new_end (fuel + 1) cur
         = st.canonicalize new_end fuel ⟨idx, cur.pos + nd2.label_len⟩) ∧
    (∀ fuel cur cur', st.canonicalize new_end fuel cur = .ok cur' →
       cur.pos ≤ cur'.pos) := by
  refine ⟨?_, ?_, ?_, ?_, ?_, ?_⟩
  · intro fuel cur hge
    rw [SuffixTree.canonicalize, if_neg (by omega)]
  · intro fuel cur ch nd o hlt hp hn hleaf
    rw [SuffixTree.canonicalize, if_pos hlt, hp]
    simp only [ok_bind]
    rw [hn]
    simp only [ok_bind, hleaf]
  · intro fuel cur ch nd hlt hp hn hnone
    have hval : (nd.child ch).val = 0 := by
      simpa [PackedRef.is_none] using hnone
    have hu : (nd.child ch).unpack = .Inner 0 := by
      rw [PackedRef.unpack, hval]; norm_num
    rw [SuffixTree.canonicalize, if_pos hlt, hp]
    simp only [ok_bind]
    rw [hn]
    simp only [ok_bind, hu]
    simp
  · intro fuel cur ch nd idx nd2 hlt hp hn hu hz hn2 hlen
    rw [SuffixTree.canonicalize, if_pos hlt, hp]
    simp only [ok_bind]
    rw [hn]
    simp only [ok_bind, hu, if_neg hz]
    rw [hn2]
    simp only [ok_bind]
    rw [if_pos (by omega)]
  · intro fuel cur ch nd idx nd2 hlt hp hn hu hz hn2 hlen
    conv_lhs => rw [SuffixTree.canonicalize]
    rw [if_pos hlt, hp]
    simp only [ok_bind]
    rw [hn]
    simp only [ok_bind, hu, if_neg hz]
    rw [hn2]
    simp only [ok_bind]
    rw [if_neg (by omega)]
  · intro fuel
    induction fuel with
    | zero =>
      intro cur cur' h
      rw [SuffixTree.canonicalize] at h
      by_cases hlt : cur.pos < new_end
      · rw [if_pos hlt] at h
        cases hp : st.getPayload cur.pos with
        | error e => rw [hp] at h; simp only [error_bind] at h; cases h
        | ok ch =>
          rw [hp] at h; simp only [ok_bind] at h
          cases hn : st.getNode cur.node with
          | error e => rw [hn] at h; simp only [error_bind] at h; cases h
          | ok nd =>
            rw [hn] at h; simp only [ok_bind] at h
            cases hu : (nd.child ch).unpack with
            | Leaf o =>
              simp only [hu] at h
              cases h
              exact le_refl _
            | Inner idx =>
              simp only [hu] at h
              by_cases hz : idx = 0
              · rw [if_pos hz] at h; cases h
              · rw [if_neg hz] at h
                cases hn2 : st.getNode idx with
                | error e => rw [hn2] at h; simp only [error_bind] at h; cases h
                | ok nd2 =>
                  rw [hn2] at h; simp only [ok_bind] at h
                  by_cases hlen : nd2.label_len > new_end - cur.pos
                  · rw [if_pos hlen] at h
                    cases h
                    exact le_refl _
                  · rw [if_neg hlen] at h
                    cases h
      · rw [if_neg hlt] at h
        cases h
        exact le_refl _
    | succ fuel ih =>
      intro cur cur' h
      rw [SuffixTree.canonicalize] at h
      by_cases hlt : cur.pos < new_end
      · rw [if_pos hlt] at h
        cases hp : st.getPayload cur.pos with
        | error e => rw [hp] at h; simp only [error_bind] at h; cases h
        | ok ch =>
          rw [hp] at h; simp only [ok_bind] at h
          cases hn : st.getNode cur.node with
          | error e => rw [hn] at h; simp only [error_bind] at h; cases h
          | ok nd =>
            rw [hn] at h; simp only [ok_bind] at h
            cases hu : (nd.child ch).unpack with
            | Leaf o =>
              simp only [hu] at h
              cases h
              exact le_refl _
            | Inner idx =>
              simp only [hu] at h
              by_cases hz : idx = 0
              · rw [if_pos hz] at h; cases h
              · rw [if_neg hz] at h
                cases hn2 : st.getNode idx with
                | error e => rw [hn2] at h; simp only [error_bind] at h; cases h
                | ok nd2 =>
                  rw [hn2] at h; simp only [ok_bind] at h
                  by_cases hlen : nd2.label_len > new_end - cur.pos
                  · rw [if_pos hlen] at h
                    cases h
                    exact le_refl _
                  · rw [if_neg hlen] at h
                    have := ih ⟨idx, cur.pos + nd2.label_len⟩ cur' h
                    simp only at this
                    omega
      · rw [if_neg hlt] at h
        cases h
        exact le_refl _

set_option smartUnfolding false in
set_option maxRecDepth 100000 in
/-- Witness for `c3_canonicalize_steps`, exercising the loop-exit conjunct,
the descend conjunct on nodes 0 → 1 of `aabTree`, and monotonicity. -/
theorem c3_canonicalize_steps_witness :
    aabTree.canonicalize 1 4 ⟨1, 1⟩ = .ok ⟨1, 1⟩ ∧
    aabTree.canonicalize 1 (3 + 1) ⟨0, 0⟩ = aabTree.canonicalize 1 3 ⟨1, 0 + 1⟩ ∧
    (⟨0, 0⟩ : Cursor).pos ≤ (⟨1, 1⟩ : Cursor).pos :=
  ⟨(c3_canonicalize_steps aabTree 1).1 4 ⟨1, 1⟩ (by decide),
   (c3_canonicalize_steps aabTree 1).2.2.2.2.1 3 ⟨0, 0⟩ 97 aabTop 1 aabRoot
     (by decide) rfl rfl (by decide) (by decide) rfl (by decide),
   (c3_canonicalize_steps aabTree 1).2.2.2.2.2 8 ⟨0, 0⟩ ⟨1, 1⟩ rfl⟩

/-! ## C6: Rule-3 stop below the active node -/

/-- C6: in any call to `update` in which, after canonicalization, the cursor's
position equals `new_end` and the active node already has a child keyed by
the newly appended character, the phase stops (Rule 3) and `update` returns
the canonicalized cursor with the arena untouched. -/
theorem c6_rule3_stop (st : SuffixTree) (cfuel fuel new_end : Nat)
    (cur_in cur' : Cursor) (new_ch : Byte) (nd : Node)
    (hch : st.getPayload new_end = .ok new_ch)
    (hcanon : st.canonicalize new_end cfuel cur_in = .ok cur')
    (hpos : cur'.pos = new_end)
    (hnd : st.getNode cur'.node = .ok nd)
    (hhave : (nd.child new_ch).is_none = false) :
    st.update cfuel (fuel + 1) cur_in new_end = .ok (st, cur') := by
  rw [SuffixTree.update, hch]
  simp only [ok_bind]
  simp only [SuffixTree.updateLoop]
  rw [hcanon]
  simp only [ok_bind]
  rw [SuffixTree.phaseStep, if_pos hpos, hnd]
  simp only [ok_bind]
  rw [if_pos hhave]
  simp only [ok_bind]

set_option smartUnfolding false in
set_option maxRecDepth 100000 in
/-- Witness for `c6_rule3_stop`: the second phase of the build of `"aa"`
stops by Rule 3 (the root already has an `a`-child) without touching the
arena. -/
theorem c6_rule3_stop_witness :
    aaMid.1.update 16 (15 + 1) aaMid.2 1 = .ok (aaMid.1, ⟨1, 1⟩) :=
  c6_rule3_stop aaMid.1 16 15 1 aaMid.2 ⟨1, 1⟩ 97 aaMidRoot rfl rfl rfl rfl rfl

/-! ## C7: the frame property of `update` -/

theorem bind_eq_ok {α β : Type} {x : Except Err α} {f : α → Except Err β} {r : β} :
    (x >>= f) = .ok r ↔ ∃ a, x = .ok a ∧ f a = .ok r := by
  cases x with
  | error e => simp [error_bind]
  | ok a => simp [ok_bind]

theorem getNode_ok_iff {st : SuffixTree} {i : Nat} {nd : Node} :
    st.getNode i = .ok nd ↔ st.nodes.get? i = some nd := by
  rw [SuffixTree.getNode]
  cases h : st.nodes.get? i <;> simp

theorem getPayload_ok_iff {st : SuffixTree} {i : Nat} {b : Byte} :
    st.getPayload i = .ok b ↔ st.payload.get? i = some b := by
  rw [SuffixTree.getPayload]
  cases h : st.payload.get? i <;> simp

theorem packedPos_from_ok {p : Nat} {q : PackedPos} (h : PackedPos.from p = .ok q) :
    q.val = p ∧ p ≤ u32Max := by
  rw [PackedPos.from] at h
  by_cases hp : p ≤ u32Max
  · rw [if_pos hp] at h
    obtain rfl := (Except.ok.inj h).symm
    constructor
    · show p % 2 ^ 32 = p
      have : p ≤ 2 ^ 32 - 1 := by simpa [u32Max] using hp
      rw [pow32] at *
      omega
    · exact hp
  · rw [if_neg hp] at h
    cases h

theorem packedRef_from_inner_ok {i : Nat} {r : PackedRef}
    (h : PackedRef.from_inner i = .ok r) : r.val = i * 2 ∧ i ≤ PackedRef.MAX_IND := by
  rw [PackedRef.from_inner] at h
  by_cases hi : i ≤ PackedRef.MAX_IND
  · rw [if_pos hi] at h
    obtain rfl := (Except.ok.inj h).symm
    refine ⟨?_, hi⟩
    show (i * 2 + 0) % 2 ^ 32 = i * 2
    rw [maxInd_eq] at hi
    rw [pow32]
    omega
  · rw [if_neg hi] at h
    cases h

theorem packedRef_from_leaf_ok {p : Nat} {r : PackedRef}
    (h : PackedRef.from_leaf p = .ok r) : r.val = p * 2 + 1 ∧ p ≤ PackedRef.MAX_IND := by
  rw [PackedRef.from_leaf] at h
  by_cases hp : p ≤ PackedRef.MAX_IND
  · rw [if_pos hp] at h
    obtain rfl := (Except.ok.inj h).symm
    refine ⟨?_, hp⟩
    show (p * 2 + 1) % 2 ^ 32 = p * 2 + 1
    rw [maxInd_eq] at hp
    rw [pow32]
    omega
  · rw [if_neg hp] at h
    cases h

theorem get?_set_self {α : Type} {l : List α} {i : Nat} {a0 : α} (a : α)
    (h : l.get? i = some a0) : (l.set i a).get? i = some a := by
  obtain ⟨hi, -⟩ := List.get?_eq_some.mp h
  rw [List.get?_eq_getElem?]
  exact List.getElem?_set_self hi

theorem get?_set_other {α : Type} {l : List α} {i j : Nat} (hne : i ≠ j) (a : α) :
    (l.set i a).get? j = l.get? j := by
  rw [List.get?_eq_getElem?, List.get?_eq_getElem?]
  exact List.getElem?_set_ne hne

theorem frameLe_refl (st : SuffixTree) : frameLe st st :=
  ⟨le_refl _, fun _ nd h => ⟨nd, h, rfl, le_refl _⟩⟩

theorem frameLe_trans {a b c : SuffixTree} (h1 : frameLe a b) (h2 : frameLe b c) :
    frameLe a c := by
  obtain ⟨l1, f1⟩ := h1
  obtain ⟨l2, f2⟩ := h2
  refine ⟨le_trans l1 l2, fun i nd h => ?_⟩
  obtain ⟨nd1, hg1, he1, hb1⟩ := f1 i nd h
  obtain ⟨nd2, hg2, he2, hb2⟩ := f2 i nd1 hg1
  exact ⟨nd2, hg2, he2.trans he1, le_trans hb1 hb2⟩

theorem frameLe_setNode {st : SuffixTree} {i : Nat} {nd nd' : Node}
    (hget : st.nodes.get? i = some nd) (hend : nd'.«end» = nd.«end»)
    (hbeg : nd.begin.val ≤ nd'.begin.val) : frameLe st (st.setNode i nd') := by
  refine ⟨by simp [SuffixTree.setNode], fun j ndj hj => ?_⟩
  by_cases hij : i = j
  · subst hij
    rw [hget] at hj
    obtain rfl := Option.some.inj hj
    exact ⟨nd', get?_set_self nd' hget, hend, hbeg⟩
  · exact ⟨ndj, by rw [SuffixTree.setNode]; exact (get?_set_other hij nd').trans hj ▸ rfl, rfl, le_refl _⟩

theorem frameLe_setNode_child {st : SuffixTree} {i : Nat} {nd : Node}
    (f : Byte → PackedRef) (hget : st.nodes.get? i = some nd) :
    frameLe st (st.setNode i { nd with child := f }) :=
  frameLe_setNode hget rfl (le_refl _)

theorem frameLe_setNode_suffix {st : SuffixTree} {i : Nat} {nd : Node}
    (r : PackedRef) (hget : st.nodes.get? i = some nd) :
    frameLe st (st.setNode i { nd with suffix := r }) :=
  frameLe_setNode hget rfl (le_refl _)

theorem frameLe_setNode_begin {st : SuffixTree} {i : Nat} {nd : Node}
    (bp : PackedPos) (hget : st.nodes.get? i = some nd)
    (hbeg : nd.begin.val ≤ bp.val) :
    frameLe st (st.setNode i { nd with begin := bp }) :=
  frameLe_setNode hget rfl hbeg

theorem frameLe_append (st : SuffixTree) (ns : List Node) :
    frameLe st { st with nodes := st.nodes ++ ns } := by
  refine ⟨by simp, fun i nd h => ⟨nd, ?_, rfl, le_refl _⟩⟩
  obtain ⟨hi, -⟩ := List.get?_eq_some.mp h
  show (st.nodes ++ ns).get? i = some nd
  rw [List.get?_eq_getElem?, List.getElem?_append_left hi, ← List.get?_eq_getElem?]
  exact h

/-- Position facts about the canonicalization loop: the position never
decreases, and it never moves past `new_end` when it starts at or before it. -/
theorem canonicalize_pos_facts {st : SuffixTree} {ne : Nat} :
    ∀ {fuel : Nat} {cur cur' : Cursor},
      st.canonicalize ne fuel cur = .ok cur' →
      cur.pos ≤ cur'.pos ∧ (cur.pos ≤ ne → cur'.pos ≤ ne) := by
  intro fuel
  induction fuel with
  | zero =>
    intro cur cur' h
    rw [SuffixTree.canonicalize] at h
    by_cases hlt : cur.pos < ne
    · rw [if_pos hlt] at h
      obtain ⟨ch, hp, h⟩ := bind_eq_ok.mp h
      obtain ⟨nd, hn, h⟩ := bind_eq_ok.mp h
      cases hu : (nd.child ch).unpack with
      | Leaf o =>
        simp only [hu] at h
        cases h
        exact ⟨le_refl _, fun hle => hle⟩
      | Inner idx =>
        simp only [hu] at h
        by_cases hz : idx = 0
        · rw [if_pos hz] at h; cases h
        · rw [if_neg hz] at h
          obtain ⟨nd2, hn2, h⟩ := bind_eq_ok.mp h
          by_cases hlen : nd2.label_len > ne - cur.pos
          · rw [if_pos hlen] at h
            cases h
            exact ⟨le_refl _, fun hle => hle⟩
          · rw [if_neg hlen] at h
            cases h
    · rw [if_neg hlt] at h
      cases h
      exact ⟨le_refl _, fun hle => hle⟩
  | succ fuel ih =>
    intro cur cur' h
    rw [SuffixTree.canonicalize] at h
    by_cases hlt : cur.pos < ne
    · rw [if_pos hlt] at h
      obtain ⟨ch, hp, h⟩ := bind_eq_ok.mp h
      obtain ⟨nd, hn, h⟩ := bind_eq_ok.mp h
      cases hu : (nd.child ch).unpack with
      | Leaf o =>
        simp only [hu] at h
        cases h
        exact ⟨le_refl _, fun hle => hle⟩
      | Inner idx =>
        simp only [hu] at h
        by_cases hz : idx = 0
        · rw [if_pos hz] at h; cases h
        · rw [if_neg hz] at h
          obtain ⟨nd2, hn2, h⟩ := bind_eq_ok.mp h
          by_cases hlen : nd2.label_len > ne - cur.pos
          · rw [if_pos hlen] at h
            cases h
            exact ⟨le_refl _, fun hle => hle⟩
          · rw [if_neg hlen] at h
            have hrec := ih h
            simp only at hrec
            exact ⟨by omega, fun hle => hrec.2 (by omega)⟩
    · rw [if_neg hlt] at h
      cases h
      exact ⟨le_refl _, fun hle => hle⟩

/-- The iteration tail (suffix-link chaining, leaf attachment, suffix-link
follow) only rewrites `suffix` and `child` fields, so it satisfies the frame
relation; it also leaves the cursor position unchanged. -/
theorem updateTail_frame {st st' : SuffixTree} {ne : Nat} {ch : Byte}
    {cur cur' : Cursor} {ins prev prev' : Nat}
    (h : st.updateTail ne ch cur ins prev = .ok (st', cur', prev')) :
    frameLe st st' ∧ cur'.pos = cur.pos := by
  rw [SuffixTree.updateTail] at h
  obtain ⟨np, hnp, h⟩ := bind_eq_ok.mp h
  obtain ⟨rs, hrs, h⟩ := bind_eq_ok.mp h
  obtain ⟨ni, hni, h⟩ := bind_eq_ok.mp h
  cases hb : (ni.child ch).is_none with
  | false =>
    rw [if_pos hb] at h
    cases h
  | true =>
    rw [if_neg (by simp [hb])] at h
    obtain ⟨rl, hrl, h⟩ := bind_eq_ok.mp h
    obtain ⟨nc, hnc, h⟩ := bind_eq_ok.mp h
    cases hu : nc.suffix.unpack with
    | Leaf o => simp only [hu] at h; cases h
    | Inner idx =>
      simp only [hu] at h
      have h' := Except.ok.inj h
      simp only [Prod.mk.injEq] at h'
      obtain ⟨rfl, rfl, -⟩ := h'
      refine ⟨?_, rfl⟩
      exact frameLe_trans
        (frameLe_setNode_suffix rs (getNode_ok_iff.mp hnp))
        (frameLe_setNode_child _ (getNode_ok_iff.mp hni))

/-- One iteration body of the extension loop satisfies the frame relation:
a Rule-3 stop returns the state and cursor unchanged, and an insertion
(including an edge split) only narrows `begin` fields, appends nodes, and
rewrites `suffix`/`child` fields. -/
theorem phaseStep_frame {st : SuffixTree} {ne : Nat} {ch : Byte} {cur : Cursor}
    {prev : Nat} {r : (SuffixTree × Cursor) ⊕ (SuffixTree × Cursor × Nat)}
    (hpos : cur.pos ≤ ne)
    (h : st.phaseStep ne ch cur prev = .ok r) :
    (∀ st2 cur2, r = .inl (st2, cur2) → st2 = st ∧ cur2 = cur) ∧
    (∀ st2 cur2 prev2, r = .inr (st2, cur2, prev2) →
      frameLe st st2 ∧ cur2.pos = cur.pos) := by
  rw [SuffixTree.phaseStep] at h
  by_cases heq : cur.pos = ne
  · rw [if_pos heq] at h
    obtain ⟨nd, hnd, h⟩ := bind_eq_ok.mp h
    cases hb : (nd.child ch).is_none with
    | false =>
      rw [if_pos hb] at h
      obtain rfl := (Except.ok.inj h).symm
      constructor
      · intro st2 cur2 hr
        obtain ⟨rfl, rfl⟩ : st = st2 ∧ cur = cur2 := by
          have := Sum.inl.inj hr
          exact ⟨congrArg Prod.fst this, congrArg Prod.snd this⟩
        exact ⟨rfl, rfl⟩
      · intro st2 cur2 prev2 hr
        cases hr
    | true =>
      rw [if_neg (by simp [hb])] at h
      obtain ⟨t, ht, h⟩ := bind_eq_ok.mp h
      obtain rfl := (Except.ok.inj h).symm
      obtain ⟨st2, cur2, prev2⟩ := t
      have hf := updateTail_frame ht
      constructor
      · intro st3 cur3 hr
        cases hr
      · intro st3 cur3 prev3 hr
        obtain ⟨rfl, rfl, rfl⟩ : st2 = st3 ∧ cur2 = cur3 ∧ prev2 = prev3 := by
          have := Sum.inr.inj hr
          exact ⟨congrArg Prod.fst this, congrArg (fun t => t.2.1) this,
            congrArg (fun t => t.2.2) this⟩
        exact hf
  · rw [if_neg heq] at h
    obtain ⟨esc, hesc, h⟩ := bind_eq_ok.mp h
    obtain ⟨nd, hnd, h⟩ := bind_eq_ok.mp h
    cases hb : (nd.child esc).is_none with
    | true =>
      rw [if_pos hb] at h
      cases h
    | false =>
      rw [if_neg (by simp [hb])] at h
      have hlt : cur.pos < ne := by omega
      -- the edge's label begin, by the two shapes of the reference
      cases hu : (nd.child esc).unpack with
      | Leaf p =>
        simp only [hu] at h
        simp only [ok_bind] at h
        obtain ⟨clc, hclc, h⟩ := bind_eq_ok.mp h
        by_cases hmatch : ch = clc
        · rw [if_pos hmatch] at h
          obtain rfl := (Except.ok.inj h).symm
          refine ⟨?_, ?_⟩
          · intro st2 cur2 hr
            obtain ⟨rfl, rfl⟩ : st = st2 ∧ cur = cur2 := by
              have := Sum.inl.inj hr
              exact ⟨congrArg Prod.fst this, congrArg Prod.snd this⟩
            exact ⟨rfl, rfl⟩
          · intro st2 cur2 prev2 hr
            cases hr
        · rw [if_neg hmatch] at h
          obtain ⟨n0, hn0, h⟩ := bind_eq_ok.mp h
          obtain ⟨rT, hrT, h⟩ := bind_eq_ok.mp h
          obtain ⟨ndc, hndc, h⟩ := bind_eq_ok.mp h
          obtain ⟨rn, hrn, h⟩ := bind_eq_ok.mp h
          obtain ⟨t, ht, h⟩ := bind_eq_ok.mp h
          obtain rfl := (Except.ok.inj h).symm
          obtain ⟨st2, cur2, prev2⟩ := t
          have hf := updateTail_frame ht
          constructor
          · intro st3 cur3 hr
            cases hr
          · intro st3 cur3 prev3 hr
            obtain ⟨rfl, rfl, rfl⟩ : st2 = st3 ∧ cur2 = cur3 ∧ prev2 = prev3 := by
              have := Sum.inr.inj hr
              exact ⟨congrArg Prod.fst this, congrArg (fun t => t.2.1) this,
                congrArg (fun t => t.2.2) this⟩
            -- st → append → child rewrite → tail
            refine ⟨frameLe_trans (frameLe_trans (frameLe_append st _)
              (frameLe_setNode_child _ (getNode_ok_iff.mp hndc))) hf.1,
              by rw [hf.2]⟩
      | Inner j =>
        simp only [hu] at h
        obtain ⟨nj, hnj, h⟩ := bind_eq_ok.mp h
        simp only [ok_bind] at h
        obtain ⟨clc, hclc, h⟩ := bind_eq_ok.mp h
        by_cases hmatch : ch = clc
        · rw [if_pos hmatch] at h
          obtain rfl := (Except.ok.inj h).symm
          refine ⟨?_, ?_⟩
          · intro st2 cur2 hr
            obtain ⟨rfl, rfl⟩ : st = st2 ∧ cur = cur2 := by
              have := Sum.inl.inj hr
              exact ⟨congrArg Prod.fst this, congrArg Prod.snd this⟩
            exact ⟨rfl, rfl⟩
          · intro st2 cur2 prev2 hr
            cases hr
        · rw [if_neg hmatch] at h
          obtain ⟨n0, hn0, h⟩ := bind_eq_ok.mp h
          obtain ⟨ni, hni, h⟩ := bind_eq_ok.mp h
          obtain ⟨bp, hbp, h⟩ := bind_eq_ok.mp h
          obtain ⟨rT, hrT, h⟩ := bind_eq_ok.mp h
          obtain ⟨ndc, hndc, h⟩ := bind_eq_ok.mp h
          obtain ⟨rn, hrn, h⟩ := bind_eq_ok.mp h
          obtain ⟨t, ht, h⟩ := bind_eq_ok.mp h
          obtain rfl := (Except.ok.inj h).symm
          obtain ⟨st2, cur2, prev2⟩ := t
          have hf := updateTail_frame ht
          constructor
          · intro st3 cur3 hr
            cases hr
          · intro st3 cur3 prev3 hr
            obtain ⟨rfl, rfl, rfl⟩ : st2 = st3 ∧ cur2 = cur3 ∧ prev2 = prev3 := by
              have := Sum.inr.inj hr
              exact ⟨congrArg Prod.fst this, congrArg (fun t => t.2.1) this,
                congrArg (fun t => t.2.2) this⟩
            -- st → begin narrowing → append → child rewrite → tail
            have hnarrow : frameLe st (st.setNode j { ni with begin := bp }) := by
              apply frameLe_setNode_begin bp (getNode_ok_iff.mp hni)
              have hbpv := (packedPos_from_ok hbp).1
              rw [hbpv]
              have hsame : ni = nj := by
                rw [getNode_ok_iff] at hni hnj
                rw [hni] at hnj
                exact Option.some.inj hnj
              subst hsame
              show ni.begin.val ≤ ni.begin.unpack + ne - cur.pos
              show ni.begin.val ≤ ni.begin.val + ne - cur.pos
              omega
            refine ⟨frameLe_trans (frameLe_trans (frameLe_trans hnarrow
              (frameLe_append _ _))
              (frameLe_setNode_child _ (getNode_ok_iff.mp hndc))) hf.1,
              by rw [hf.2]⟩

/-- The extension loop satisfies the frame relation whenever its input
cursor's position is at most `new_end`. -/
theorem updateLoop_frame {cfuel ne : Nat} {ch : Byte} :
    ∀ {fuel : Nat} {st : SuffixTree} {cur0 : Cursor} {prev : Nat}
      {st' : SuffixTree} {cur' : Cursor},
      cur0.pos ≤ ne →
      SuffixTree.updateLoop cfuel ne ch fuel st cur0 prev = .ok (st', cur') →
      frameLe st st' := by
  intro fuel
  induction fuel with
  | zero =>
    intro st cur0 prev st' cur' hpos h
    simp only [SuffixTree.updateLoop] at h
    cases h
  | succ fuel ih =>
    intro st cur0 prev st' cur' hpos h
    simp only [SuffixTree.updateLoop] at h
    obtain ⟨cur, hcanon, h⟩ := bind_eq_ok.mp h
    obtain ⟨r, hstep, h⟩ := bind_eq_ok.mp h
    have hcpos : cur.pos ≤ ne := (canonicalize_pos_facts hcanon).2 hpos
    have hps := phaseStep_frame hcpos hstep
    cases r with
    | inl res =>
      obtain ⟨st2, cur2⟩ := res
      simp only at h
      have h' := Except.ok.inj h
      simp only [Prod.mk.injEq] at h'
      obtain ⟨rfl, rfl⟩ := h'
      obtain ⟨rfl, rfl⟩ := hps.1 st2 cur2 rfl
      exact frameLe_refl st2
    | inr t =>
      obtain ⟨st2, cur2, prev2⟩ := t
      simp only at h
      obtain ⟨hfr, hcp⟩ := hps.2 st2 cur2 prev2 rfl
      exact frameLe_trans hfr (ih (by omega) h)

/-- C7: every call to `update` whose input cursor position is at most
`new_end` (as is the case for every call the build makes) preserves the
arena's existing nodes: the node count never decreases, every existing node
survives at its index, its `end` field is unchanged and its `begin` field
never decreases. -/
theorem c7_update_frame (st st' : SuffixTree) (cfuel fuel new_end : Nat)
    (cur_in cur' : Cursor)
    (hpos : cur_in.pos ≤ new_end)
    (h : st.update cfuel fuel cur_in new_end = .ok (st', cur')) :
    frameLe st st' := by
  rw [SuffixTree.update] at h
  obtain ⟨ch, hch, h⟩ := bind_eq_ok.mp h
  exact updateLoop_frame hpos h

set_option smartUnfolding false in
set_option maxRecDepth 400000 in
/-- Witness for `c7_update_frame`: the third phase of the build of `"aab"`
(which splits an edge and narrows the old leaf's label) still satisfies the
frame relation. -/
theorem c7_update_frame_witness : frameLe aabMid2.1 aabTree :=
  c7_update_frame aabMid2.1 aabTree 16 16 2 aabMid2.2 ⟨0, 2⟩ (by decide) rfl

/-! ## C4: suffix links always decode to inner references -/

theorem evenSuffix_get {st : SuffixTree} (he : st.evenSuffix) {i : Nat} {nd : Node}
    (h : st.nodes.get? i = some nd) : nd.suffix.val % 2 = 0 :=
  he nd (List.get?_mem h)

theorem evenSuffix_setNode {st : SuffixTree} (he : st.evenSuffix) {i : Nat}
    {nd : Node} (hnd : nd.suffix.val % 2 = 0) : (st.setNode i nd).evenSuffix := by
  intro x hx
  rcases List.mem_or_eq_of_mem_set hx with hmem | rfl
  · exact he x hmem
  · exact hnd

theorem evenSuffix_append {st : SuffixTree} (he : st.evenSuffix) {nd : Node}
    (hnd : nd.suffix.val % 2 = 0) :
    SuffixTree.evenSuffix { st with nodes := st.nodes ++ [nd] } := by
  intro x hx
  rcases List.mem_append.mp hx with hmem | hmem
  · exact he x hmem
  · rw [List.mem_singleton.mp hmem]
    exact hnd

theorem from_inner_even {i : Nat} {r : PackedRef}
    (h : PackedRef.from_inner i = .ok r) : r.val % 2 = 0 := by
  rw [(packedRef_from_inner_ok h).1]
  omega

theorem new_special_even {b e s c : Nat} {nd : Node}
    (h : Node.new_special b e s c = .ok nd) : nd.suffix.val % 2 = 0 := by
  rw [Node.new_special] at h
  obtain ⟨bp, hbp, h⟩ := bind_eq_ok.mp h
  obtain ⟨ep, hep, h⟩ := bind_eq_ok.mp h
  obtain ⟨rs, hrs, h⟩ := bind_eq_ok.mp h
  obtain ⟨rc, hrc, h⟩ := bind_eq_ok.mp h
  obtain rfl := (Except.ok.inj h).symm
  exact from_inner_even hrs


theorem getNode_error {st : SuffixTree} {i : Nat} {e : Err}
    (h : st.getNode i = .error e) : e = .nodeOob := by
  rw [SuffixTree.getNode] at h
  cases hg : st.nodes.get? i <;> rw [hg] at h
  · exact (Except.error.inj h).symm
  · cases h

theorem getPayload_error {st : SuffixTree} {i : Nat} {e : Err}
    (h : st.getPayload i = .error e) : e = .payloadOob := by
  rw [SuffixTree.getPayload] at h
  cases hg : st.payload.get? i <;> rw [hg] at h
  · exact (Except.error.inj h).symm
  · cases h

theorem from_inner_error {i : Nat} {e : Err}
    (h : PackedRef.from_inner i = .error e) : e = .refTooBig := by
  rw [PackedRef.from_inner] at h
  by_cases hle : i ≤ PackedRef.MAX_IND
  · rw [if_pos hle] at h; cases h
  · rw [if_neg hle] at h; exact (Except.error.inj h).symm

theorem from_leaf_error {p : Nat} {e : Err}
    (h : PackedRef.from_leaf p = .error e) : e = .refTooBig := by
  rw [PackedRef.from_leaf] at h
  by_cases hle : p ≤ PackedRef.MAX_IND
  · rw [if_pos hle] at h; cases h
  · rw [if_neg hle] at h; exact (Except.error.inj h).symm

theorem packedPos_from_error {p : Nat} {e : Err}
    (h : PackedPos.from p = .error e) : e = .posTooBig := by
  rw [PackedPos.from] at h
  by_cases hle : p ≤ u32Max
  · rw [if_pos hle] at h; cases h
  · rw [if_neg hle] at h; exact (Except.error.inj h).symm

theorem new_special_error {b e s c : Nat} {er : Err}
    (h : Node.new_special b e s c = .error er) :
    er = .posTooBig ∨ er = .refTooBig := by
  rw [Node.new_special] at h
  cases hbp : PackedPos.from b with
  | error e1 =>
    rw [hbp] at h
    simp only [error_bind] at h
    exact Or.inl ((Except.error.inj h).symm.trans (packedPos_from_error hbp))
  | ok bp =>
    rw [hbp] at h
    simp only [ok_bind] at h
    cases hep : PackedPos.from e with
    | error e1 =>
      rw [hep] at h
      simp only [error_bind] at h
      exact Or.inl ((Except.error.inj h).symm.trans (packedPos_from_error hep))
    | ok ep =>
      rw [hep] at h
      simp only [ok_bind] at h
      cases hrs : PackedRef.from_inner s with
      | error e1 =>
        rw [hrs] at h
        simp only [error_bind] at h
        exact Or.inr ((Except.error.inj h).symm.trans (from_inner_error hrs))
      | ok rs =>
        rw [hrs] at h
        simp only [ok_bind] at h
        cases hrc : PackedRef.from_inner c with
        | error e1 =>
          rw [hrc] at h
          simp only [error_bind] at h
          exact Or.inr ((Except.error.inj h).symm.trans (from_inner_error hrc))
        | ok rc =>
          rw [hrc] at h
          simp only [ok_bind] at h
          cases h

/-- The iteration tail preserves the even-suffix invariant and, under it,
never takes the `Suffix links must be to inner nodes!` abort branch. -/
theorem updateTail_even {st : SuffixTree} {ne : Nat} {ch : Byte} {cur : Cursor}
    {ins prev : Nat} {res : Except Err (SuffixTree × Cursor × Nat)}
    (he : st.evenSuffix) (h : st.updateTail ne ch cur ins prev = res) :
    (∀ st' cur' prev', res = .ok (st', cur', prev') → st'.evenSuffix) ∧
    res ≠ .error .suffixNotInner := by
  rw [SuffixTree.updateTail] at h
  cases hnp : st.getNode prev with
  | error e =>
    rw [hnp] at h
    simp only [error_bind] at h
    subst h
    refine ⟨fun _ _ _ hcon => (nomatch hcon), fun hcon => ?_⟩
    rw [getNode_error hnp] at hcon
    cases hcon
  | ok np =>
    rw [hnp] at h
    simp only [ok_bind] at h
    cases hrs : PackedRef.from_inner ins with
    | error e =>
      rw [hrs] at h
      simp only [error_bind] at h
      subst h
      refine ⟨fun _ _ _ hcon => (nomatch hcon), fun hcon => ?_⟩
      rw [from_inner_error hrs] at hcon
      cases hcon
    | ok rs =>
      rw [hrs] at h
      simp only [ok_bind] at h
      have he1 : (st.setNode prev { np with suffix := rs }).evenSuffix :=
        evenSuffix_setNode he (from_inner_even hrs)
      cases hni : (st.setNode prev { np with suffix := rs }).getNode ins with
      | error e =>
        rw [hni] at h
        simp only [error_bind] at h
        subst h
        refine ⟨fun _ _ _ hcon => (nomatch hcon), fun hcon => ?_⟩
        rw [getNode_error hni] at hcon
        cases hcon
      | ok ni =>
        rw [hni] at h
        simp only [ok_bind] at h
        cases hb : (ni.child ch).is_none with
        | false =>
          rw [if_pos hb] at h
          subst h
          exact ⟨fun _ _ _ hcon => (nomatch hcon), fun hcon => nomatch hcon⟩
        | true =>
          rw [if_neg (by simp [hb])] at h
          cases hrl : PackedRef.from_leaf ne with
          | error e =>
            rw [hrl] at h
            simp only [error_bind] at h
            subst h
            refine ⟨fun _ _ _ hcon => (nomatch hcon), fun hcon => ?_⟩
            rw [from_leaf_error hrl] at hcon
            cases hcon
          | ok rl =>
            rw [hrl] at h
            simp only [ok_bind] at h
            have hni' := getNode_ok_iff.mp hni
            have he2 : ((st.setNode prev { np with suffix := rs }).setNode ins
                { ni with child := fun c => if c = ch then rl
                    else ni.child c }).evenSuffix := by
              apply evenSuffix_setNode he1
              show ni.suffix.val % 2 = 0
              exact evenSuffix_get he1 hni'
            cases hnc : ((st.setNode prev { np with suffix := rs }).setNode ins
                { ni with child := fun c => if c = ch then rl
                    else ni.child c }).getNode cur.node with
            | error e =>
              rw [hnc] at h
              simp only [error_bind] at h
              subst h
              refine ⟨fun _ _ _ hcon => (nomatch hcon), fun hcon => ?_⟩
              rw [getNode_error hnc] at hcon
              cases hcon
            | ok nc =>
              rw [hnc] at h
              simp only [ok_bind] at h
              have hev : nc.suffix.val % 2 = 0 :=
                evenSuffix_get he2 (getNode_ok_iff.mp hnc)
              have hu : nc.suffix.unpack = .Inner (nc.suffix.val / 2) := by
                rw [PackedRef.unpack, if_pos hev]
              rw [hu] at h
              subst h
              refine ⟨fun st' cur' prev' hok => ?_, fun hcon => (nomatch hcon)⟩
              have h' := Except.ok.inj hok
              simp only [Prod.mk.injEq] at h'
              obtain ⟨rfl, -, -⟩ := h'
              exact he2

/-- The canonicalization loop never raises the suffix-link abort. -/
theorem canonicalize_no_suffix_panic {st : SuffixTree} {ne : Nat} :
    ∀ {fuel : Nat} {cur : Cursor},
      st.canonicalize ne fuel cur ≠ .error .suffixNotInner := by
  intro fuel
  induction fuel with
  | zero =>
    intro cur hcon
    rw [SuffixTree.canonicalize] at hcon
    by_cases hlt : cur.pos < ne
    · rw [if_pos hlt] at hcon
      cases hp : st.getPayload cur.pos with
      | error e =>
        rw [hp] at hcon
        simp only [error_bind] at hcon
        rw [getPayload_error hp] at hcon
        cases hcon
      | ok ch =>
        rw [hp] at hcon
        simp only [ok_bind] at hcon
        cases hn : st.getNode cur.node with
        | error e =>
          rw [hn] at hcon
          simp only [error_bind] at hcon
          rw [getNode_error hn] at hcon
          cases hcon
        | ok nd =>
          rw [hn] at hcon
          simp only [ok_bind] at hcon
          cases hu : (nd.child ch).unpack with
          | Leaf o => simp only [hu] at hcon; cases hcon
          | Inner idx =>
            simp only [hu] at hcon
            by_cases hz : idx = 0
            · rw [if_pos hz] at hcon; cases hcon
            · rw [if_neg hz] at hcon
              cases hn2 : st.getNode idx with
              | error e =>
                rw [hn2] at hcon
                simp only [error_bind] at hcon
                rw [getNode_error hn2] at hcon
                cases hcon
              | ok nd2 =>
                rw [hn2] at hcon
                simp only [ok_bind] at hcon
                by_cases hlen : nd2.label_len > ne - cur.pos
                · rw [if_pos hlen] at hcon; cases hcon
                · rw [if_neg hlen] at hcon; cases hcon
    · rw [if_neg hlt] at hcon
      cases hcon
  | succ fuel ih =>
    intro cur hcon
    rw [SuffixTree.canonicalize] at hcon
    by_cases hlt : cur.pos < ne
    · rw [if_pos hlt] at hcon
      cases hp : st.getPayload cur.pos with
      | error e =>
        rw [hp] at hcon
        simp only [error_bind] at hcon
        rw [getPayload_error hp] at hcon
        cases hcon
      | ok ch =>
        rw [hp] at hcon
        simp only [ok_bind] at hcon
        cases hn : st.getNode cur.node with
        | error e =>
          rw [hn] at hcon
          simp only [error_bind] at hcon
          rw [getNode_error hn] at hcon
          cases hcon
        | ok nd =>
          rw [hn] at hcon
          simp only [ok_bind] at hcon
          cases hu : (nd.child ch).unpack with
          | Leaf o => simp only [hu] at hcon; cases hcon
          | Inner idx =>
            simp only [hu] at hcon
            by_cases hz : idx = 0
            · rw [if_pos hz] at hcon; cases hcon
            · rw [if_neg hz] at hcon
              cases hn2 : st.getNode idx with
              | error e =>
                rw [hn2] at hcon
                simp only [error_bind] at hcon
                rw [getNode_error hn2] at hcon
                cases hcon
              | ok nd2 =>
                rw [hn2] at hcon
                simp only [ok_bind] at hcon
                by_cases hlen : nd2.label_len > ne - cur.pos
                · rw [if_pos hlen] at hcon; cases hcon
                · rw [if_neg hlen] at hcon
                  exact ih hcon
    · rw [if_neg hlt] at hcon
      cases hcon

/-- One iteration body preserves the even-suffix invariant and never raises
the suffix-link abort. -/
theorem phaseStep_even {st : SuffixTree} {ne : Nat} {ch : Byte} {cur : Cursor}
    {prev : Nat} {res : Except Err ((SuffixTree × Cursor) ⊕ (SuffixTree × Cursor × Nat))}
    (he : st.evenSuffix) (h : st.phaseStep ne ch cur prev = res) :
    (∀ st2 cur2, res = .ok (.inl (st2, cur2)) → st2.evenSuffix) ∧
    (∀ st2 cur2 prev2, res = .ok (.inr (st2, cur2, prev2)) → st2.evenSuffix) ∧
    res ≠ .error .suffixNotInner := by
  rw [SuffixTree.phaseStep] at h
  by_cases heq : cur.pos = ne
  · rw [if_pos heq] at h
    cases hnd : st.getNode cur.node with
    | error e =>
      rw [hnd] at h
      simp only [error_bind] at h
      subst h
      refine ⟨fun _ _ hcon => (nomatch hcon), fun _ _ _ hcon => (nomatch hcon), fun hcon => ?_⟩
      rw [getNode_error hnd] at hcon
      cases hcon
    | ok nd =>
      rw [hnd] at h
      simp only [ok_bind] at h
      cases hb : (nd.child ch).is_none with
      | false =>
        rw [if_pos hb] at h
        subst h
        refine ⟨fun st2 cur2 hok => ?_, fun _ _ _ hcon => (nomatch hcon),
          fun hcon => (nomatch hcon)⟩
        have h' := Sum.inl.inj (Except.ok.inj hok)
        simp only [Prod.mk.injEq] at h'
        obtain ⟨rfl, -⟩ := h'
        exact he
      | true =>
        rw [if_neg (by simp [hb])] at h
        cases ht : st.updateTail ne ch cur cur.node prev with
        | error e =>
          rw [ht] at h
          simp only [error_bind] at h
          subst h
          refine ⟨fun _ _ hcon => (nomatch hcon), fun _ _ _ hcon => (nomatch hcon), ?_⟩
          intro hcon
          exact (updateTail_even he ht).2 (by rw [Except.error.inj hcon])
        | ok t =>
          rw [ht] at h
          simp only [ok_bind] at h
          subst h
          obtain ⟨st2, cur2, prev2⟩ := t
          refine ⟨fun _ _ hcon => (nomatch hcon), fun st3 cur3 prev3 hok => ?_,
            fun hcon => (nomatch hcon)⟩
          have h' := Sum.inr.inj (Except.ok.inj hok)
          simp only [Prod.mk.injEq] at h'
          obtain ⟨rfl, -, -⟩ := h'
          exact (updateTail_even he ht).1 st2 cur2 prev2 rfl
  · rw [if_neg heq] at h
    cases hesc : st.getPayload cur.pos with
    | error e =>
      rw [hesc] at h
      simp only [error_bind] at h
      subst h
      refine ⟨fun _ _ hcon => (nomatch hcon), fun _ _ _ hcon => (nomatch hcon), fun hcon => ?_⟩
      rw [getPayload_error hesc] at hcon
      cases hcon
    | ok esc =>
      rw [hesc] at h
      simp only [ok_bind] at h
      cases hnd : st.getNode cur.node with
      | error e =>
        rw [hnd] at h
        simp only [error_bind] at h
        subst h
        refine ⟨fun _ _ hcon => (nomatch hcon), fun _ _ _ hcon => (nomatch hcon), fun hcon => ?_⟩
        rw [getNode_error hnd] at hcon
        cases hcon
      | ok nd =>
        rw [hnd] at h
        simp only [ok_bind] at h
        cases hb : (nd.child esc).is_none with
        | true =>
          rw [if_pos hb] at h
          subst h
          exact ⟨fun _ _ hcon => (nomatch hcon), fun _ _ _ hcon => (nomatch hcon),
            fun hcon => (nomatch (Except.error.inj hcon : Err.edgeRefNone = Err.suffixNotInner))⟩
        | false =>
          rw [if_neg (by simp [hb])] at h
          -- the edge label begin, by the two shapes of the reference
          cases hu : (nd.child esc).unpack with
          | Leaf p =>
            simp only [hu, ok_bind] at h
            cases hclc : st.getPayload (p + ne - cur.pos) with
            | error e =>
              rw [hclc] at h
              simp only [error_bind] at h
              subst h
              refine ⟨fun _ _ hcon => (nomatch hcon), fun _ _ _ hcon => (nomatch hcon),
                fun hcon => ?_⟩
              rw [getPayload_error hclc] at hcon
              cases hcon
            | ok clc =>
              rw [hclc] at h
              simp only [ok_bind] at h
              by_cases hmatch : ch = clc
              · rw [if_pos hmatch] at h
                subst h
                refine ⟨fun st2 cur2 hok => ?_, fun _ _ _ hcon => (nomatch hcon),
                  fun hcon => (nomatch hcon)⟩
                have h' := Sum.inl.inj (Except.ok.inj hok)
                simp only [Prod.mk.injEq] at h'
                obtain ⟨rfl, -⟩ := h'
                exact he
              · rw [if_neg hmatch] at h
                cases hn0 : Node.new p (p + ne - cur.pos) 1 with
                | error e =>
                  rw [hn0] at h
                  simp only [error_bind] at h
                  subst h
                  refine ⟨fun _ _ hcon => (nomatch hcon), fun _ _ _ hcon => (nomatch hcon),
                    fun hcon => ?_⟩
                  rw [Node.new] at hn0
                  rcases new_special_error hn0 with rfl | rfl <;>
                    exact (nomatch Except.error.inj hcon)
                | ok n0 =>
                  rw [hn0] at h
                  simp only [ok_bind] at h
                  cases hrT : PackedRef.from_leaf (p + ne - cur.pos) with
                  | error e =>
                    rw [hrT] at h
                    simp only [error_bind] at h
                    subst h
                    refine ⟨fun _ _ hcon => (nomatch hcon), fun _ _ _ hcon => (nomatch hcon),
                      fun hcon => ?_⟩
                    rw [from_leaf_error hrT] at hcon
                    cases hcon
                  | ok rT =>
                    rw [hrT] at h
                    simp only [ok_bind] at h
                    cases hndc : SuffixTree.getNode
                        { st with nodes := st.nodes ++
                          [{ n0 with child := fun c => if c = clc then rT else n0.child c }] }
                        cur.node with
                    | error e =>
                      rw [hndc] at h
                      simp only [error_bind] at h
                      subst h
                      refine ⟨fun _ _ hcon => (nomatch hcon), fun _ _ _ hcon => (nomatch hcon),
                        fun hcon => ?_⟩
                      rw [getNode_error hndc] at hcon
                      cases hcon
                    | ok ndc =>
                      rw [hndc] at h
                      simp only [ok_bind] at h
                      cases hrn : PackedRef.from_inner st.nodes.length with
                      | error e =>
                        rw [hrn] at h
                        simp only [error_bind] at h
                        subst h
                        refine ⟨fun _ _ hcon => (nomatch hcon),
                          fun _ _ _ hcon => (nomatch hcon), fun hcon => ?_⟩
                        rw [from_inner_error hrn] at hcon
                        cases hcon
                      | ok rn =>
                        rw [hrn] at h
                        simp only [ok_bind] at h
                        have heApp : SuffixTree.evenSuffix { st with nodes := st.nodes ++
                            [{ n0 with child := fun c => if c = clc then rT
                                else n0.child c }] } := by
                          apply evenSuffix_append he
                          show n0.suffix.val % 2 = 0
                          rw [Node.new] at hn0
                          exact new_special_even hn0
                        have heC : SuffixTree.evenSuffix
                            (SuffixTree.setNode { st with nodes := st.nodes ++
                              [{ n0 with child := fun c => if c = clc then rT
                                  else n0.child c }] } cur.node
                              { ndc with child := fun c => if c = esc then rn
                                  else ndc.child c }) := by
                          apply evenSuffix_setNode heApp
                          show ndc.suffix.val % 2 = 0
                          exact evenSuffix_get heApp (getNode_ok_iff.mp hndc)
                        cases ht : SuffixTree.updateTail
                            (SuffixTree.setNode { st with nodes := st.nodes ++
                              [{ n0 with child := fun c => if c = clc then rT
                                  else n0.child c }] } cur.node
                              { ndc with child := fun c => if c = esc then rn
                                  else ndc.child c }) ne ch cur st.nodes.length prev with
                        | error e =>
                          rw [ht] at h
                          simp only [error_bind] at h
                          subst h
                          refine ⟨fun _ _ hcon => (nomatch hcon),
                            fun _ _ _ hcon => (nomatch hcon), fun hcon => ?_⟩
                          exact (updateTail_even heC ht).2 (by rw [Except.error.inj hcon])
                        | ok t =>
                          rw [ht] at h
                          simp only [ok_bind] at h
                          subst h
                          obtain ⟨st2, cur2, prev2⟩ := t
                          refine ⟨fun _ _ hcon => (nomatch hcon),
                            fun st3 cur3 prev3 hok => ?_, fun hcon => (nomatch hcon)⟩
                          have h' := Sum.inr.inj (Except.ok.inj hok)
                          simp only [Prod.mk.injEq] at h'
                          obtain ⟨rfl, -, -⟩ := h'
                          exact (updateTail_even heC ht).1 st2 cur2 prev2 rfl
          | Inner j =>
            simp only [hu] at h
            cases hnj : st.getNode j with
            | error e =>
              rw [hnj] at h
              simp only [error_bind] at h
              subst h
              refine ⟨fun _ _ hcon => (nomatch hcon), fun _ _ _ hcon => (nomatch hcon),
                fun hcon => ?_⟩
              rw [getNode_error hnj] at hcon
              cases hcon
            | ok nj =>
              rw [hnj] at h
              simp only [ok_bind] at h
              cases hclc : st.getPayload (nj.begin.unpack + ne - cur.pos) with
              | error e =>
                rw [hclc] at h
                simp only [error_bind] at h
                subst h
                refine ⟨fun _ _ hcon => (nomatch hcon), fun _ _ _ hcon => (nomatch hcon),
                  fun hcon => ?_⟩
                rw [getPayload_error hclc] at hcon
                cases hcon
              | ok clc =>
                rw [hclc] at h
                simp only [ok_bind] at h
                by_cases hmatch : ch = clc
                · rw [if_pos hmatch] at h
                  subst h
                  refine ⟨fun st2 cur2 hok => ?_, fun _ _ _ hcon => (nomatch hcon),
                    fun hcon => (nomatch hcon)⟩
                  have h' := Sum.inl.inj (Except.ok.inj hok)
                  simp only [Prod.mk.injEq] at h'
                  obtain ⟨rfl, -⟩ := h'
                  exact he
                · rw [if_neg hmatch] at h
                  cases hn0 : Node.new nj.begin.unpack (nj.begin.unpack + ne - cur.pos) 1 with
                  | error e =>
                    rw [hn0] at h
                    simp only [error_bind] at h
                    subst h
                    refine ⟨fun _ _ hcon => (nomatch hcon), fun _ _ _ hcon => (nomatch hcon),
                      fun hcon => ?_⟩
                    rw [Node.new] at hn0
                    rcases new_special_error hn0 with rfl | rfl <;>
                      exact (nomatch Except.error.inj hcon)
                  | ok n0 =>
                    rw [hn0] at h
                    simp only [ok_bind] at h
                    cases hbp : PackedPos.from (nj.begin.unpack + ne - cur.pos) with
                    | error e =>
                      rw [hbp] at h
                      simp only [error_bind] at h
                      subst h
                      refine ⟨fun _ _ hcon => (nomatch hcon),
                        fun _ _ _ hcon => (nomatch hcon), fun hcon => ?_⟩
                      rw [packedPos_from_error hbp] at hcon
                      cases hcon
                    | ok bp =>
                      rw [hbp] at h
                      simp only [ok_bind] at h
                      cases hrT : PackedRef.from_inner j with
                      | error e =>
                        rw [hrT] at h
                        simp only [error_bind] at h
                        subst h
                        refine ⟨fun _ _ hcon => (nomatch hcon),
                          fun _ _ _ hcon => (nomatch hcon), fun hcon => ?_⟩
                        rw [from_inner_error hrT] at hcon
                        cases hcon
                      | ok rT =>
                        rw [hrT] at h
                        simp only [ok_bind] at h
                        cases hndc : SuffixTree.getNode
                            { st.setNode j { nj with begin := bp } with
                              nodes := (st.setNode j { nj with begin := bp }).nodes ++
                                [{ n0 with child := fun c => if c = clc then rT
                                    else n0.child c }] } cur.node with
                        | error e =>
                          rw [hndc] at h
                          simp only [error_bind] at h
                          subst h
                          refine ⟨fun _ _ hcon => (nomatch hcon),
                            fun _ _ _ hcon => (nomatch hcon), fun hcon => ?_⟩
                          rw [getNode_error hndc] at hcon
                          cases hcon
                        | ok ndc =>
                          rw [hndc] at h
                          simp only [ok_bind] at h
                          cases hrn : PackedRef.from_inner
                              (st.setNode j { nj with begin := bp }).nodes.length with
                          | error e =>
                            rw [hrn] at h
                            simp only [error_bind] at h
                            subst h
                            refine ⟨fun _ _ hcon => (nomatch hcon),
                              fun _ _ _ hcon => (nomatch hcon), fun hcon => ?_⟩
                            rw [from_inner_error hrn] at hcon
                            cases hcon
                          | ok rn =>
                            rw [hrn] at h
                            simp only [ok_bind] at h
                            have heN : (st.setNode j { nj with begin := bp }).evenSuffix := by
                              apply evenSuffix_setNode he
                              show nj.suffix.val % 2 = 0
                              exact evenSuffix_get he (getNode_ok_iff.mp hnj)
                            have heApp : SuffixTree.evenSuffix
                                { st.setNode j { nj with begin := bp } with
                                  nodes := (st.setNode j { nj with begin := bp }).nodes ++
                                    [{ n0 with child := fun c => if c = clc then rT
                                        else n0.child c }] } := by
                              apply evenSuffix_append heN
                              show n0.suffix.val % 2 = 0
                              rw [Node.new] at hn0
                              exact new_special_even hn0
                            have heC : SuffixTree.evenSuffix
                                (SuffixTree.setNode
                                  { st.setNode j { nj with begin := bp } with
                                    nodes := (st.setNode j { nj with begin := bp }).nodes ++
                                      [{ n0 with child := fun c => if c = clc then rT
                                          else n0.child c }] } cur.node
                                  { ndc with child := fun c => if c = esc then rn
                                      else ndc.child c }) := by
                              apply evenSuffix_setNode heApp
                              show ndc.suffix.val % 2 = 0
                              exact evenSuffix_get heApp (getNode_ok_iff.mp hndc)
                            cases ht : SuffixTree.updateTail
                                (SuffixTree.setNode
                                  { st.setNode j { nj with begin := bp } with
                                    nodes := (st.setNode j { nj with begin := bp }).nodes ++
                                      [{ n0 with child := fun c => if c = clc then rT
                                          else n0.child c }] } cur.node
                                  { ndc with child := fun c => if c = esc then rn
                                      else ndc.child c }) ne ch cur
                                (st.setNode j { nj with begin := bp }).nodes.length prev with
                            | error e =>
                              rw [ht] at h
                              simp only [error_bind] at h
                              subst h
                              refine ⟨fun _ _ hcon => (nomatch hcon),
                                fun _ _ _ hcon => (nomatch hcon), fun hcon => ?_⟩
                              exact (updateTail_even heC ht).2 (by rw [Except.error.inj hcon])
                            | ok t =>
                              rw [ht] at h
                              simp only [ok_bind] at h
                              subst h
                              obtain ⟨st2, cur2, prev2⟩ := t
                              refine ⟨fun _ _ hcon => (nomatch hcon),
                                fun st3 cur3 prev3 hok => ?_, fun hcon => (nomatch hcon)⟩
                              have h' := Sum.inr.inj (Except.ok.inj hok)
                              simp only [Prod.mk.injEq] at h'
                              obtain ⟨rfl, -, -⟩ := h'
                              exact (updateTail_even heC ht).1 st2 cur2 prev2 rfl

/-- The extension loop preserves the even-suffix invariant and never raises
the suffix-link abort. -/
theorem updateLoop_even {cfuel ne : Nat} {ch : Byte} :
    ∀ {fuel : Nat} {st : SuffixTree} {cur0 : Cursor} {prev : Nat}
      {res : Except Err (SuffixTree × Cursor)},
      st.evenSuffix →
      SuffixTree.updateLoop cfuel ne ch fuel st cur0 prev = res →
      (∀ st' cur', res = .ok (st', cur') → st'.evenSuffix) ∧
      res ≠ .error .suffixNotInner := by
  intro fuel
  induction fuel with
  | zero =>
    intro st cur0 prev res he h
    simp only [SuffixTree.updateLoop] at h
    subst h
    exact ⟨fun _ _ hcon => (nomatch hcon), fun hcon => (nomatch Except.error.inj hcon)⟩
  | succ fuel ih =>
    intro st cur0 prev res he h
    simp only [SuffixTree.updateLoop] at h
    cases hcanon : st.canonicalize ne cfuel cur0 with
    | error e =>
      rw [hcanon] at h
      simp only [error_bind] at h
      subst h
      refine ⟨fun _ _ hcon => (nomatch hcon), fun hcon => ?_⟩
      exact canonicalize_no_suffix_panic (hcanon.trans (by rw [Except.error.inj hcon]))
    | ok cur =>
      rw [hcanon] at h
      simp only [ok_bind] at h
      cases hstep : st.phaseStep ne ch cur prev with
      | error e =>
        rw [hstep] at h
        simp only [error_bind] at h
        subst h
        refine ⟨fun _ _ hcon => (nomatch hcon), fun hcon => ?_⟩
        exact (phaseStep_even he hstep).2.2 (by rw [Except.error.inj hcon])
      | ok r =>
        rw [hstep] at h
        simp only [ok_bind] at h
        cases r with
        | inl res2 =>
          obtain ⟨st2, cur2⟩ := res2
          simp only at h
          subst h
          refine ⟨fun st3 cur3 hok => ?_, fun hcon => (nomatch hcon)⟩
          have h' := Except.ok.inj hok
          simp only [Prod.mk.injEq] at h'
          obtain ⟨rfl, -⟩ := h'
          exact (phaseStep_even he hstep).1 st2 cur2 rfl
        | inr t =>
          obtain ⟨st2, cur2, prev2⟩ := t
          simp only at h
          have he2 : st2.evenSuffix := (phaseStep_even he hstep).2.1 st2 cur2 prev2 rfl
          exact ih he2 h

/-- `update` preserves the even-suffix invariant and never raises the
suffix-link abort. -/
theorem update_even {st : SuffixTree} {cfuel fuel : Nat} {cur_in : Cursor}
    {ne : Nat} {res : Except Err (SuffixTree × Cursor)}
    (he : st.evenSuffix) (h : st.update cfuel fuel cur_in ne = res) :
    (∀ st' cur', res = .ok (st', cur') → st'.evenSuffix) ∧
    res ≠ .error .suffixNotInner := by
  rw [SuffixTree.update] at h
  cases hch : st.getPayload ne with
  | error e =>
    rw [hch] at h
    simp only [error_bind] at h
    subst h
    refine ⟨fun _ _ hcon => (nomatch hcon), fun hcon => ?_⟩
    rw [getPayload_error hch] at hcon
    cases hcon
  | ok ch =>
    rw [hch] at h
    simp only [ok_bind] at h
    exact updateLoop_even he h

/-- The two sentinel nodes both carry even suffix links. -/
theorem init_even {payload : List Byte} {st0 : SuffixTree}
    (h : SuffixTree.init payload = .ok st0) : st0.evenSuffix := by
  rw [SuffixTree.init] at h
  obtain ⟨top, htop, h⟩ := bind_eq_ok.mp h
  obtain ⟨root, hroot, h⟩ := bind_eq_ok.mp h
  obtain rfl := (Except.ok.inj h).symm
  intro nd hnd
  rcases List.mem_pair.mp hnd with rfl | rfl
  · exact new_special_even htop
  · rw [Node.new] at hroot
    exact new_special_even hroot

/-- The build fold preserves the even-suffix invariant and never raises the
suffix-link abort. -/
theorem buildSteps_even {cfuel fuel : Nat} :
    ∀ {ps : List Nat} {st : SuffixTree} {cur : Cursor}
      {res : Except Err (SuffixTree × Cursor)},
      st.evenSuffix →
      SuffixTree.buildSteps cfuel fuel ps (st, cur) = res →
      (∀ st' cur', res = .ok (st', cur') → st'.evenSuffix) ∧
      res ≠ .error .suffixNotInner := by
  intro ps
  induction ps with
  | nil =>
    intro st cur res he h
    rw [SuffixTree.buildSteps] at h
    subst h
    refine ⟨fun st' cur' hok => ?_, fun hcon => (nomatch hcon)⟩
    have h' := Except.ok.inj hok
    simp only [Prod.mk.injEq] at h'
    obtain ⟨rfl, -⟩ := h'
    exact he
  | cons p ps ih =>
    intro st cur res he h
    rw [SuffixTree.buildSteps] at h
    cases hup : st.update cfuel fuel cur p with
    | error e =>
      rw [hup] at h
      simp only [error_bind] at h
      subst h
      refine ⟨fun _ _ hcon => (nomatch hcon), fun hcon => ?_⟩
      exact (update_even he hup).2 (by rw [Except.error.inj hcon])
    | ok sc =>
      rw [hup] at h
      simp only [ok_bind] at h
      obtain ⟨st1, cur1⟩ := sc
      have he1 : st1.evenSuffix := (update_even he hup).1 st1 cur1 rfl
      exact ih he1 h

/-- C4: after initialization and after every `update` call, every node's
`suffix` field decodes to an `Inner` reference (in particular every inner
node other than node 0 does); consequently, for every payload and any fuel,
the `Suffix links must be to inner nodes!` abort branch is unreachable
during `SuffixTree::from`. -/
theorem c4_suffix_links_inner :
    (∀ (payload : List Byte) (st0 : SuffixTree),
      SuffixTree.init payload = .ok st0 → st0.evenSuffix) ∧
    (∀ (st : SuffixTree) (cfuel fuel : Nat) (cur : Cursor) (ne : Nat)
      (st' : SuffixTree) (cur' : Cursor),
      st.evenSuffix → st.update cfuel fuel cur ne = .ok (st', cur') →
      st'.evenSuffix) ∧
    (∀ st : SuffixTree, st.evenSuffix →
      ∀ (i : Nat) (nd : Node), st.nodes.get? i = some nd →
        ∃ j, nd.suffix.unpack = .Inner j) ∧
    (∀ (payload : List Byte) (cfuel fuel : Nat),
      SuffixTree.from payload cfuel fuel ≠ .error .suffixNotInner) := by
  refine ⟨fun payload st0 h => init_even h,
    fun st cfuel fuel cur ne st' cur' he h => (update_even he h).1 st' cur' rfl,
    fun st he i nd hnd => ?_, fun payload cfuel fuel hcon => ?_⟩
  · refine ⟨nd.suffix.val / 2, ?_⟩
    rw [PackedRef.unpack, if_pos (evenSuffix_get he hnd)]
  · rw [SuffixTree.from] at hcon
    cases hinit : SuffixTree.init payload with
    | error e =>
      rw [hinit] at hcon
      simp only [error_bind] at hcon
      rw [SuffixTree.init] at hinit
      cases htop : Node.new_special 0 0 0 1 with
      | error e1 =>
        rw [htop] at hinit
        simp only [error_bind] at hinit
        obtain rfl := (Except.error.inj hinit).symm
        rcases new_special_error htop with rfl | rfl <;> cases Except.error.inj hcon
      | ok top =>
        rw [htop] at hinit
        simp only [ok_bind] at hinit
        cases hroot : Node.new 0 1 0 with
        | error e1 =>
          rw [hroot] at hinit
          simp only [error_bind] at hinit
          obtain rfl := (Except.error.inj hinit).symm
          rw [Node.new] at hroot
          rcases new_special_error hroot with rfl | rfl <;> cases Except.error.inj hcon
        | ok root =>
          rw [hroot] at hinit
          simp only [ok_bind] at hinit
          cases hinit
    | ok st0 =>
      rw [hinit] at hcon
      simp only [ok_bind] at hcon
      cases hbs : SuffixTree.buildSteps cfuel fuel (List.range payload.length)
          (st0, ⟨1, 0⟩) with
      | error e =>
        rw [hbs] at hcon
        simp only [error_bind] at hcon
        exact (buildSteps_even (init_even hinit) hbs).2
          (by rw [Except.error.inj hcon])
      | ok sc =>
        rw [hbs] at hcon
        simp only [ok_bind] at hcon
        obtain ⟨st', cur'⟩ := sc
        cases hcon

set_option smartUnfolding false in
set_option maxRecDepth 400000 in
/-- Witness for `c4_suffix_links_inner`: the root of `aabTree` has a decodable
inner suffix link, the third `"aab"` phase preserves the invariant, and the
whole `"aab"` build never reaches the suffix-link abort. -/
theorem c4_suffix_links_inner_witness :
    (∃ j, aabRoot.suffix.unpack = .Inner j) ∧
    aabTree.evenSuffix ∧
    SuffixTree.from aabPayload 16 16 ≠ .error .suffixNotInner :=
  ⟨c4_suffix_links_inner.2.2.1 aabTree (by decide) 1 aabRoot rfl,
   c4_suffix_links_inner.2.1 aabMid2.1 16 16 aabMid2.2 2 aabTree ⟨0, 2⟩ (by decide) rfl,
   c4_suffix_links_inner.2.2.2 aabPayload 16 16⟩

/-! ## C8: the sentinel nodes -/

theorem enum_get? {α : Type} {l : List α} {i : Nat} {a : α} :
    (i, a) ∈ l.enum ↔ l.get? i = some a := by
  rw [List.mk_mem_enum_iff_getElem?, List.get?_eq_getElem?]

theorem sentinelInv_node0 {st : SuffixTree} (hs : st.sentinelInv) :
    ∃ nd0, st.nodes.get? 0 = some nd0 ∧ ∀ c : Byte, nd0.child c = ⟨2⟩ := by
  obtain ⟨hlen, h0, -, -⟩ := hs
  cases hg : st.nodes.get? 0 with
  | none =>
    rw [List.get?_eq_none] at hg
    omega
  | some nd0 => exact ⟨nd0, rfl, h0 nd0 hg⟩

theorem sentinelInv_node1 {st : SuffixTree} (hs : st.sentinelInv) :
    ∃ nd1, st.nodes.get? 1 = some nd1 ∧ nd1.begin.val = 0 ∧ nd1.«end».val = 1 := by
  obtain ⟨hlen, -, h1, -⟩ := hs
  cases hg : st.nodes.get? 1 with
  | none =>
    rw [List.get?_eq_none] at hg
    omega
  | some nd1 => exact ⟨nd1, rfl, h1 nd1 hg⟩

theorem sentinelInv_no_two {st : SuffixTree} (hs : st.sentinelInv) {v : Nat}
    {nd : Node} (hv : 1 ≤ v) (hg : st.nodes.get? v = some nd) (c : Byte) :
    nd.child c ≠ ⟨2⟩ :=
  hs.2.2.2 (v, nd) (enum_get?.mpr hg) hv c

theorem setNode_get?_self {st : SuffixTree} {i : Nat} {nd0 : Node} (nd' : Node)
    (h : st.nodes.get? i = some nd0) : (st.setNode i nd').nodes.get? i = some nd' :=
  get?_set_self nd' h

theorem setNode_get?_other {st : SuffixTree} {i j : Nat} (hne : i ≠ j) (nd' : Node) :
    (st.setNode i nd').nodes.get? j = st.nodes.get? j :=
  get?_set_other hne nd'

/-- Case split for reads from a `setNode` result. -/
theorem setNode_get?_cases {st : SuffixTree} {i j : Nat} {nd0 nd' x : Node}
    (hget : st.nodes.get? i = some nd0)
    (hx : (st.setNode i nd').nodes.get? j = some x) :
    (j = i ∧ x = nd') ∨ (j ≠ i ∧ st.nodes.get? j = some x) := by
  by_cases hij : i = j
  · subst hij
    rw [setNode_get?_self nd' hget] at hx
    exact Or.inl ⟨rfl, (Option.some.inj hx).symm⟩
  · rw [setNode_get?_other hij nd'] at hx
    exact Or.inr ⟨fun hcon => hij hcon.symm, hx⟩

/-- Case split for reads from an appended arena. -/
theorem append_get?_cases {st : SuffixTree} {j : Nat} {nd x : Node}
    (hx : (st.nodes ++ [nd]).get? j = some x) :
    st.nodes.get? j = some x ∨ (j = st.nodes.length ∧ x = nd) := by
  by_cases hj : j < st.nodes.length
  · left
    rw [List.get?_eq_getElem?, List.getElem?_append_left hj, ← List.get?_eq_getElem?] at hx
    exact hx
  · right
    rw [List.get?_eq_getElem?, List.getElem?_append_right (by omega),
      ← List.get?_eq_getElem?] at hx
    have hj0 : j - st.nodes.length = 0 := by
      rcases Nat.lt_or_ge (j - st.nodes.length) 1 with h | h
      · omega
      · rw [List.get?_len_le (by simpa using h)] at hx
        cases hx
    rw [hj0] at hx
    rw [show ([nd] : List Node).get? 0 = some nd from rfl] at hx
    exact ⟨by omega, (Option.some.inj hx).symm⟩

/-- Setting a node while keeping its child table, `begin` and `end` preserves
the sentinel invariant. -/
theorem sentinelInv_setNode_keep {st : SuffixTree} (hs : st.sentinelInv)
    {i : Nat} {nd nd' : Node} (hget : st.nodes.get? i = some nd)
    (hchild : nd'.child = nd.child) (hb : nd'.begin = nd.begin)
    (he : nd'.«end» = nd.«end») : (st.setNode i nd').sentinelInv := by
  obtain ⟨hlen, h0, h1, h2⟩ := hs
  refine ⟨by simpa [SuffixTree.setNode] using hlen, ?_, ?_, ?_⟩
  · intro x hx c
    rcases setNode_get?_cases hget hx with ⟨rfl, rfl⟩ | ⟨-, hg⟩
    · rw [hchild]
      exact h0 nd hget c
    · exact h0 x hg c
  · intro x hx
    rcases setNode_get?_cases hget hx with ⟨rfl, rfl⟩ | ⟨-, hg⟩
    · rw [hb, he]
      exact h1 nd hget
    · exact h1 x hg
  · intro p hp hv c
    rw [enum_get?] at hp
    rcases setNode_get?_cases hget hp with ⟨hpi, h2'⟩ | ⟨-, hg⟩
    · rw [h2', hchild]
      exact h2 (p.1, nd) (enum_get?.mpr (hpi ▸ hget)) hv c
    · exact h2 p (enum_get?.mpr hg) hv c

/-- Narrowing the `begin` of a node of index ≥ 2 preserves the sentinel
invariant. -/
theorem sentinelInv_setNode_begin {st : SuffixTree} (hs : st.sentinelInv)
    {i : Nat} {nd : Node} (hget : st.nodes.get? i = some nd) (hi : 2 ≤ i)
    (bp : PackedPos) : (st.setNode i { nd with begin := bp }).sentinelInv := by
  obtain ⟨hlen, h0, h1, h2⟩ := hs
  refine ⟨by simpa [SuffixTree.setNode] using hlen, ?_, ?_, ?_⟩
  · intro x hx c
    rcases setNode_get?_cases hget hx with ⟨rfl, -⟩ | ⟨-, hg⟩
    · omega
    · exact h0 x hg c
  · intro x hx
    rcases setNode_get?_cases hget hx with ⟨rfl, -⟩ | ⟨-, hg⟩
    · omega
    · exact h1 x hg
  · intro p hp hv c
    rw [enum_get?] at hp
    rcases setNode_get?_cases hget hp with ⟨hpi, h2'⟩ | ⟨-, hg⟩
    · rw [h2']
      show nd.child c ≠ ⟨2⟩
      exact h2 (p.1, nd) (enum_get?.mpr (hpi ▸ hget)) hv c
    · exact h2 p (enum_get?.mpr hg) hv c

/-- Rewriting one child slot of a node of index ≥ 1 to a value other than the
packed `Inner 1` reference preserves the sentinel invariant. -/
theorem sentinelInv_setNode_child {st : SuffixTree} (hs : st.sentinelInv)
    {i : Nat} {nd : Node} (hget : st.nodes.get? i = some nd) (hi : 1 ≤ i)
    {k : Byte} {v : PackedRef} (hv : v ≠ ⟨2⟩) :
    (st.setNode i
      { nd with child := fun c => if c = k then v else nd.child c }).sentinelInv := by
  obtain ⟨hlen, h0, h1, h2⟩ := hs
  refine ⟨by simpa [SuffixTree.setNode] using hlen, ?_, ?_, ?_⟩
  · intro x hx c
    rcases setNode_get?_cases hget hx with ⟨rfl, -⟩ | ⟨-, hg⟩
    · omega
    · exact h0 x hg c
  · intro x hx
    rcases setNode_get?_cases hget hx with ⟨rfl, rfl⟩ | ⟨-, hg⟩
    · exact h1 nd hget
    · exact h1 x hg
  · intro p hp hpv c
    rw [enum_get?] at hp
    rcases setNode_get?_cases hget hp with ⟨hpi, h2'⟩ | ⟨-, hg⟩
    · rw [h2']
      show (if c = k then v else nd.child c) ≠ ⟨2⟩
      by_cases hck : c = k
      · rw [if_pos hck]; exact hv
      · rw [if_neg hck]
        exact h2 (p.1, nd) (enum_get?.mpr (hpi ▸ hget)) hpv c
    · exact h2 p (enum_get?.mpr hg) hpv c

/-- Appending a node none of whose child slots is the packed `Inner 1`
reference preserves the sentinel invariant. -/
theorem sentinelInv_append {st : SuffixTree} (hs : st.sentinelInv)
    {nd : Node} (hnd : ∀ c : Byte, nd.child c ≠ ⟨2⟩) :
    SuffixTree.sentinelInv { st with nodes := st.nodes ++ [nd] } := by
  obtain ⟨hlen, h0, h1, h2⟩ := hs
  refine ⟨by simp; omega, ?_, ?_, ?_⟩
  · intro x hx c
    rcases append_get?_cases hx with hg | ⟨hj, rfl⟩
    · exact h0 x hg c
    · omega
  · intro x hx
    rcases append_get?_cases hx with hg | ⟨hj, rfl⟩
    · exact h1 x hg
    · omega
  · intro p hp hv c
    rw [enum_get?] at hp
    rcases append_get?_cases hp with hg | ⟨hj, hx⟩
    · exact h2 p (enum_get?.mpr hg) hv c
    · rw [hx]
      exact hnd c

theorem unpack_inner_val {r : PackedRef} {j : Nat} (h : r.unpack = .Inner j) :
    r.val = 2 * j := by
  rw [PackedRef.unpack] at h
  by_cases he : r.val % 2 = 0
  · rw [if_pos he] at h
    obtain rfl := NodeRef.Inner.inj h
    omega
  · rw [if_neg he] at h
    cases h

theorem is_none_false_val {r : PackedRef} (h : r.is_none = false) : r.val ≠ 0 := by
  simpa [PackedRef.is_none] using h

theorem unpack_two : PackedRef.unpack ⟨2⟩ = .Inner 1 := by
  have := unpack_double 1
  simpa using this

/-- Under the sentinel invariant, the canonicalization loop can only stop at
node 0 when the whole remaining span is consumed: from node 0 it always
descends (through the root's synthetic one-character edge). -/
theorem canonicalize_exits_top {st : SuffixTree} {ne : Nat} (hs : st.sentinelInv) :
    ∀ {fuel : Nat} {cur cur' : Cursor},
      st.canonicalize ne fuel cur = .ok cur' → cur'.pos < ne → cur'.node ≠ 0 := by
  intro fuel
  induction fuel with
  | zero =>
    intro cur cur' h hlt'
    rw [SuffixTree.canonicalize] at h
    by_cases hlt : cur.pos < ne
    · rw [if_pos hlt] at h
      obtain ⟨ch, hp, h⟩ := bind_eq_ok.mp h
      obtain ⟨nd, hn, h⟩ := bind_eq_ok.mp h
      cases hu : (nd.child ch).unpack with
      | Leaf o =>
        simp only [hu] at h
        obtain rfl := Except.ok.inj h
        intro hc0
        rw [hc0, getNode_ok_iff] at hn
        obtain ⟨nd0, hg0, hch0⟩ := sentinelInv_node0 hs
        rw [hg0] at hn
        obtain rfl := Option.some.inj hn
        rw [hch0 ch, unpack_two] at hu
        cases hu
      | Inner idx =>
        simp only [hu] at h
        by_cases hz : idx = 0
        · rw [if_pos hz] at h; cases h
        · rw [if_neg hz] at h
          obtain ⟨nd2, hn2, h⟩ := bind_eq_ok.mp h
          by_cases hlen : nd2.label_len > ne - cur.pos
          · rw [if_pos hlen] at h
            obtain rfl := Except.ok.inj h
            intro hc0
            rw [hc0, getNode_ok_iff] at hn
            obtain ⟨nd0, hg0, hch0⟩ := sentinelInv_node0 hs
            rw [hg0] at hn
            obtain rfl := Option.some.inj hn
            rw [hch0 ch, unpack_two] at hu
            obtain rfl := (NodeRef.Inner.inj hu).symm
            rw [getNode_ok_iff] at hn2
            obtain ⟨nd1, hg1, hb1, he1⟩ := sentinelInv_node1 hs
            rw [hg1] at hn2
            obtain rfl := Option.some.inj hn2
            have : nd1.label_len = 1 := by
              simp [Node.label_len, PackedPos.unpack, hb1, he1]
            omega
          · rw [if_neg hlen] at h
            cases h
    · rw [if_neg hlt] at h
      obtain rfl := Except.ok.inj h
      omega
  | succ fuel ih =>
    intro cur cur' h hlt'
    rw [SuffixTree.canonicalize] at h
    by_cases hlt : cur.pos < ne
    · rw [if_pos hlt] at h
      obtain ⟨ch, hp, h⟩ := bind_eq_ok.mp h
      obtain ⟨nd, hn, h⟩ := bind_eq_ok.mp h
      cases hu : (nd.child ch).unpack with
      | Leaf o =>
        simp only [hu] at h
        obtain rfl := Except.ok.inj h
        intro hc0
        rw [hc0, getNode_ok_iff] at hn
        obtain ⟨nd0, hg0, hch0⟩ := sentinelInv_node0 hs
        rw [hg0] at hn
        obtain rfl := Option.some.inj hn
        rw [hch0 ch, unpack_two] at hu
        cases hu
      | Inner idx =>
        simp only [hu] at h
        by_cases hz : idx = 0
        · rw [if_pos hz] at h; cases h
        · rw [if_neg hz] at h
          obtain ⟨nd2, hn2, h⟩ := bind_eq_ok.mp h
          by_cases hlen : nd2.label_len > ne - cur.pos
          · rw [if_pos hlen] at h
            obtain rfl := Except.ok.inj h
            intro hc0
            rw [hc0, getNode_ok_iff] at hn
            obtain ⟨nd0, hg0, hch0⟩ := sentinelInv_node0 hs
            rw [hg0] at hn
            obtain rfl := Option.some.inj hn
            rw [hch0 ch, unpack_two] at hu
            obtain rfl := (NodeRef.Inner.inj hu).symm
            rw [getNode_ok_iff] at hn2
            obtain ⟨nd1, hg1, hb1, he1⟩ := sentinelInv_node1 hs
            rw [hg1] at hn2
            obtain rfl := Option.some.inj hn2
            have : nd1.label_len = 1 := by
              simp [Node.label_len, PackedPos.unpack, hb1, he1]
            omega
          · rw [if_neg hlen] at h
            exact ih h hlt'
    · rw [if_neg hlt] at h
      obtain rfl := Except.ok.inj h
      omega

/-- The iteration tail preserves the sentinel invariant when the insertion
point is not node 0. -/
theorem updateTail_sentinel {st st' : SuffixTree} {ne : Nat} {ch : Byte}
    {cur cur' : Cursor} {ins prev prev' : Nat}
    (hs : st.sentinelInv) (hins : ins ≠ 0)
    (h : st.updateTail ne ch cur ins prev = .ok (st', cur', prev')) :
    st'.sentinelInv := by
  rw [SuffixTree.updateTail] at h
  obtain ⟨np, hnp, h⟩ := bind_eq_ok.mp h
  obtain ⟨rs, hrs, h⟩ := bind_eq_ok.mp h
  obtain ⟨ni, hni, h⟩ := bind_eq_ok.mp h
  cases hb : (ni.child ch).is_none with
  | false =>
    rw [if_pos hb] at h
    cases h
  | true =>
    rw [if_neg (by simp [hb])] at h
    obtain ⟨rl, hrl, h⟩ := bind_eq_ok.mp h
    obtain ⟨nc, hnc, h⟩ := bind_eq_ok.mp h
    cases hu : nc.suffix.unpack with
    | Leaf o => simp only [hu] at h; cases h
    | Inner idx =>
      simp only [hu] at h
      have h' := Except.ok.inj h
      simp only [Prod.mk.injEq] at h'
      obtain ⟨rfl, -, -⟩ := h'
      have hs1 : (st.setNode prev { np with suffix := rs }).sentinelInv :=
        sentinelInv_setNode_keep hs (getNode_ok_iff.mp hnp) rfl rfl rfl
      apply sentinelInv_setNode_child hs1 (getNode_ok_iff.mp hni) (by omega)
      intro hcon
      have hval := (packedRef_from_leaf_ok hrl).1
      rw [hcon] at hval
      have hv2 : (⟨2⟩ : PackedRef).val = 2 := rfl
      rw [hv2] at hval
      omega

/-- New nodes are created with an all-absent child table. -/
theorem new_child_zero {b e s : Nat} {nd : Node} (h : Node.new b e s = .ok nd) :
    ∀ c : Byte, nd.child c = ⟨0⟩ := by
  rw [Node.new, Node.new_special] at h
  obtain ⟨bp, hbp, h⟩ := bind_eq_ok.mp h
  obtain ⟨ep, hep, h⟩ := bind_eq_ok.mp h
  obtain ⟨rs, hrs, h⟩ := bind_eq_ok.mp h
  obtain ⟨rc, hrc, h⟩ := bind_eq_ok.mp h
  obtain rfl := (Except.ok.inj h).symm
  intro c
  show rc = ⟨0⟩
  have := (packedRef_from_inner_ok hrc).1
  cases rc
  simp only at this
  simp [this]

/-- One iteration body preserves the sentinel invariant (for a cursor that
canonicalization produced: position bounded by `new_end`, not at node 0 when
strictly inside the phase). -/
theorem phaseStep_sentinel {st : SuffixTree} {ne : Nat} {ch : Byte} {cur : Cursor}
    {prev : Nat} {r : (SuffixTree × Cursor) ⊕ (SuffixTree × Cursor × Nat)}
    (hs : st.sentinelInv) (hposle : cur.pos ≤ ne)
    (hnode : cur.pos < ne → cur.node ≠ 0)
    (h : st.phaseStep ne ch cur prev = .ok r) :
    ∀ st2 cur2 prev2, r = .inr (st2, cur2, prev2) → st2.sentinelInv := by
  rw [SuffixTree.phaseStep] at h
  by_cases heq : cur.pos = ne
  · rw [if_pos heq] at h
    obtain ⟨nd, hnd, h⟩ := bind_eq_ok.mp h
    cases hb : (nd.child ch).is_none with
    | false =>
      rw [if_pos hb] at h
      obtain rfl := (Except.ok.inj h).symm
      intro st2 cur2 prev2 hr
      cases hr
    | true =>
      rw [if_neg (by simp [hb])] at h
      obtain ⟨t, ht, h⟩ := bind_eq_ok.mp h
      obtain rfl := (Except.ok.inj h).symm
      obtain ⟨st2, cur2, prev2⟩ := t
      intro st3 cur3 prev3 hr
      have h' := Sum.inr.inj hr
      simp only [Prod.mk.injEq] at h'
      obtain ⟨rfl, -, -⟩ := h'
      -- the active node cannot be node 0 here: node 0 has no absent slot
      have hc0 : cur.node ≠ 0 := by
        intro hcon
        rw [hcon, getNode_ok_iff] at hnd
        obtain ⟨nd0, hg0, hch0⟩ := sentinelInv_node0 hs
        rw [hg0] at hnd
        obtain rfl := Option.some.inj hnd
        rw [hch0 ch] at hb
        cases hb
      exact updateTail_sentinel hs hc0 ht
  · rw [if_neg heq] at h
    have hlt : cur.pos < ne := by omega
    have hc0 : cur.node ≠ 0 := hnode hlt
    obtain ⟨esc, hesc, h⟩ := bind_eq_ok.mp h
    obtain ⟨nd, hnd, h⟩ := bind_eq_ok.mp h
    cases hb : (nd.child esc).is_none with
    | true =>
      rw [if_pos hb] at h
      cases h
    | false =>
      rw [if_neg (by simp [hb])] at h
      have hnotwo : nd.child esc ≠ ⟨2⟩ :=
        sentinelInv_no_two hs (by omega) (getNode_ok_iff.mp hnd) esc
      cases hu : (nd.child esc).unpack with
      | Leaf p =>
        simp only [hu, ok_bind] at h
        obtain ⟨clc, hclc, h⟩ := bind_eq_ok.mp h
        by_cases hmatch : ch = clc
        · rw [if_pos hmatch] at h
          obtain rfl := (Except.ok.inj h).symm
          intro st2 cur2 prev2 hr
          cases hr
        · rw [if_neg hmatch] at h
          obtain ⟨n0, hn0, h⟩ := bind_eq_ok.mp h
          obtain ⟨rT, hrT, h⟩ := bind_eq_ok.mp h
          obtain ⟨ndc, hndc, h⟩ := bind_eq_ok.mp h
          obtain ⟨rn, hrn, h⟩ := bind_eq_ok.mp h
          obtain ⟨t, ht, h⟩ := bind_eq_ok.mp h
          obtain rfl := (Except.ok.inj h).symm
          obtain ⟨st2, cur2, prev2⟩ := t
          intro st3 cur3 prev3 hr
          have h' := Sum.inr.inj hr
          simp only [Prod.mk.injEq] at h'
          obtain ⟨rfl, -, -⟩ := h'
          -- the new node's children: one leaf reference, the rest absent
          have hsApp : SuffixTree.sentinelInv { st with nodes := st.nodes ++
              [{ n0 with child := fun c => if c = clc then rT else n0.child c }] } := by
            apply sentinelInv_append hs
            intro c
            show (if c = clc then rT else n0.child c) ≠ ⟨2⟩
            by_cases hck : c = clc
            · rw [if_pos hck]
              intro hcon
              have hval := (packedRef_from_leaf_ok hrT).1
              rw [hcon] at hval
              have hv2 : (⟨2⟩ : PackedRef).val = 2 := rfl
              rw [hv2] at hval
              omega
            · rw [if_neg hck, new_child_zero hn0 c]
              intro hcon
              cases hcon
          have hsC : SuffixTree.sentinelInv
              (SuffixTree.setNode { st with nodes := st.nodes ++
                  [{ n0 with child := fun c => if c = clc then rT else n0.child c }] }
                cur.node
                { ndc with child := fun c => if c = esc then rn else ndc.child c }) := by
            apply sentinelInv_setNode_child hsApp (getNode_ok_iff.mp hndc) (by omega)
            intro hcon
            have hval := (packedRef_from_inner_ok hrn).1
            rw [hcon] at hval
            have hv2 : (⟨2⟩ : PackedRef).val = 2 := rfl
            rw [hv2] at hval
            have hlen2 : 2 ≤ st.nodes.length := hs.1
            omega
          apply updateTail_sentinel hsC ?_ ht
          have hlen2 : 2 ≤ st.nodes.length := hs.1
          omega
      | Inner j =>
        simp only [hu] at h
        obtain ⟨nj, hnj, h⟩ := bind_eq_ok.mp h
        simp only [ok_bind] at h
        obtain ⟨clc, hclc, h⟩ := bind_eq_ok.mp h
        by_cases hmatch : ch = clc
        · rw [if_pos hmatch] at h
          obtain rfl := (Except.ok.inj h).symm
          intro st2 cur2 prev2 hr
          cases hr
        · rw [if_neg hmatch] at h
          obtain ⟨n0, hn0, h⟩ := bind_eq_ok.mp h
          obtain ⟨ni, hni, h⟩ := bind_eq_ok.mp h
          rw [hnj] at hni
          obtain rfl := Except.ok.inj hni
          obtain ⟨bp, hbp, h⟩ := bind_eq_ok.mp h
          obtain ⟨rT, hrT, h⟩ := bind_eq_ok.mp h
          obtain ⟨ndc, hndc, h⟩ := bind_eq_ok.mp h
          obtain ⟨rn, hrn, h⟩ := bind_eq_ok.mp h
          obtain ⟨t, ht, h⟩ := bind_eq_ok.mp h
          obtain rfl := (Except.ok.inj h).symm
          obtain ⟨st2, cur2, prev2⟩ := t
          intro st3 cur3 prev3 hr
          have h' := Sum.inr.inj hr
          simp only [Prod.mk.injEq] at h'
          obtain ⟨rfl, -, -⟩ := h'
          -- the split target is neither sentinel: its packed value is even,
          -- nonzero, and not 2
          have hjval : (nd.child esc).val = 2 * j := unpack_inner_val hu
          have hj0 : j ≠ 0 := by
            intro hcon
            have := is_none_false_val hb
            rw [hcon] at hjval
            omega
          have hj1 : j ≠ 1 := by
            intro hcon
            apply hnotwo
            rw [hcon] at hjval
            cases hch : nd.child esc
            rw [hch] at hjval
            simp only at hjval
            simp [hjval]
          have hsN : (st.setNode j { nj with begin := bp }).sentinelInv :=
            sentinelInv_setNode_begin hs (getNode_ok_iff.mp hnj) (by omega) bp
          have hsApp : SuffixTree.sentinelInv
              { st.setNode j { nj with begin := bp } with
                nodes := (st.setNode j { nj with begin := bp }).nodes ++
                  [{ n0 with child := fun c => if c = clc then rT
                      else n0.child c }] } := by
            apply sentinelInv_append hsN
            intro c
            show (if c = clc then rT else n0.child c) ≠ ⟨2⟩
            by_cases hck : c = clc
            · rw [if_pos hck]
              intro hcon
              have hval := (packedRef_from_inner_ok hrT).1
              rw [hcon] at hval
              have hv2 : (⟨2⟩ : PackedRef).val = 2 := rfl
              rw [hv2] at hval
              omega
            · rw [if_neg hck, new_child_zero hn0 c]
              intro hcon
              cases hcon
          have hsC : SuffixTree.sentinelInv
              (SuffixTree.setNode
                { st.setNode j { nj with begin := bp } with
                  nodes := (st.setNode j { nj with begin := bp }).nodes ++
                    [{ n0 with child := fun c => if c = clc then rT
                        else n0.child c }] } cur.node
                { ndc with child := fun c => if c = esc then rn else ndc.child c }) := by
            apply sentinelInv_setNode_child hsApp (getNode_ok_iff.mp hndc) (by omega)
            intro hcon
            have hval := (packedRef_from_inner_ok hrn).1
            rw [hcon] at hval
            have hv2 : (⟨2⟩ : PackedRef).val = 2 := rfl
            rw [hv2] at hval
            have hlen2 : 2 ≤ st.nodes.length := hs.1
            have hlenset : (st.setNode j { nj with begin := bp }).nodes.length
                = st.nodes.length := by
              simp [SuffixTree.setNode]
            omega
          apply updateTail_sentinel hsC ?_ ht
          have hlen2 : 2 ≤ st.nodes.length := hs.1
          have hlenset : (st.setNode j { nj with begin := bp }).nodes.length
              = st.nodes.length := by
            simp [SuffixTree.setNode]
          omega

/-- The extension loop preserves the sentinel invariant, and returns a cursor
position at most `new_end`. -/
theorem updateLoop_sentinel {cfuel ne : Nat} {ch : Byte} :
    ∀ {fuel : Nat} {st : SuffixTree} {cur0 : Cursor} {prev : Nat}
      {st' : SuffixTree} {cur' : Cursor},
      st.sentinelInv → cur0.pos ≤ ne →
      SuffixTree.updateLoop cfuel ne ch fuel st cur0 prev = .ok (st', cur') →
      st'.sentinelInv ∧ cur'.pos ≤ ne := by
  intro fuel
  induction fuel with
  | zero =>
    intro st cur0 prev st' cur' hs hpos h
    simp only [SuffixTree.updateLoop] at h
    cases h
  | succ fuel ih =>
    intro st cur0 prev st' cur' hs hpos h
    simp only [SuffixTree.updateLoop] at h
    obtain ⟨cur, hcanon, h⟩ := bind_eq_ok.mp h
    obtain ⟨r, hstep, h⟩ := bind_eq_ok.mp h
    have hcpos : cur.pos ≤ ne := (canonicalize_pos_facts hcanon).2 hpos
    have hnode := canonicalize_exits_top hs hcanon
    cases r with
    | inl res =>
      obtain ⟨st2, cur2⟩ := res
      simp only at h
      have h' := Except.ok.inj h
      simp only [Prod.mk.injEq] at h'
      obtain ⟨rfl, rfl⟩ := h'
      obtain ⟨rfl, rfl⟩ := (phaseStep_frame hcpos hstep).1 st2 cur2 rfl
      exact ⟨hs, hcpos⟩
    | inr t =>
      obtain ⟨st2, cur2, prev2⟩ := t
      simp only at h
      have hs2 : st2.sentinelInv := phaseStep_sentinel hs hcpos hnode hstep st2 cur2 prev2 rfl
      have hcp2 : cur2.pos = cur.pos := ((phaseStep_frame hcpos hstep).2 st2 cur2 prev2 rfl).2
      exact ih hs2 (by omega) h

/-- `update` preserves the sentinel invariant when called with a cursor
position at most `new_end`, and returns a cursor position at most `new_end`. -/
theorem update_sentinel {st st' : SuffixTree} {cfuel fuel : Nat}
    {cur cur' : Cursor} {ne : Nat}
    (hs : st.sentinelInv) (hpos : cur.pos ≤ ne)
    (h : st.update cfuel fuel cur ne = .ok (st', cur')) :
    st'.sentinelInv ∧ cur'.pos ≤ ne := by
  rw [SuffixTree.update] at h
  obtain ⟨ch, hch, h⟩ := bind_eq_ok.mp h
  exact updateLoop_sentinel hs hpos h

/-- The two sentinel nodes as initialized satisfy the sentinel invariant. -/
theorem init_sentinel {payload : List Byte} {st0 : SuffixTree}
    (h : SuffixTree.init payload = .ok st0) : st0.sentinelInv := by
  rw [SuffixTree.init] at h
  obtain ⟨top, htop, h⟩ := bind_eq_ok.mp h
  obtain ⟨root, hroot, h⟩ := bind_eq_ok.mp h
  obtain rfl := (Except.ok.inj h).symm
  have htop' := htop
  rw [Node.new_special] at htop'
  obtain ⟨bp, hbp, htop'⟩ := bind_eq_ok.mp htop'
  obtain ⟨ep, hep, htop'⟩ := bind_eq_ok.mp htop'
  obtain ⟨rs, hrs, htop'⟩ := bind_eq_ok.mp htop'
  obtain ⟨rc, hrc, htop'⟩ := bind_eq_ok.mp htop'
  obtain rfl := (Except.ok.inj htop').symm
  have hrc2 : rc = ⟨2⟩ := by
    have := (packedRef_from_inner_ok hrc).1
    cases rc
    simp only at this
    simp [this]
  have hroot' := hroot
  rw [Node.new, Node.new_special] at hroot'
  obtain ⟨bpr, hbpr, hroot'⟩ := bind_eq_ok.mp hroot'
  obtain ⟨epr, hepr, hroot'⟩ := bind_eq_ok.mp hroot'
  obtain ⟨rsr, hrsr, hroot'⟩ := bind_eq_ok.mp hroot'
  obtain ⟨rcr, hrcr, hroot'⟩ := bind_eq_ok.mp hroot'
  obtain rfl := (Except.ok.inj hroot').symm
  have hrcr0 : rcr = ⟨0⟩ := by
    have := (packedRef_from_inner_ok hrcr).1
    cases rcr
    simp only at this
    simp [this]
  refine ⟨by simp, ?_, ?_, ?_⟩
  · intro nd hnd c
    obtain rfl := Option.some.inj hnd
    simp only
    rw [hrc2]
  · intro nd hnd
    obtain rfl := Option.some.inj hnd
    simp only
    constructor
    · exact (packedPos_from_ok hbpr).1
    · exact (packedPos_from_ok hepr).1
  · intro p hp hv c
    rw [enum_get?] at hp
    obtain ⟨j, x⟩ := p
    simp only at hp hv ⊢
    match j, hv with
    | 1, _ =>
      obtain rfl := Option.some.inj hp
      simp only
      rw [hrcr0]
      intro hcon
      cases hcon
    | (k + 2), _ =>
      rw [show ([_, _] : List Node).get? (k + 2) = none from rfl] at hp
      cases hp

/-- The build fold preserves the sentinel invariant, provided the processed
positions are strictly ascending and bound the cursor position from below. -/
theorem buildSteps_sentinel {cfuel fuel : Nat} :
    ∀ {ps : List Nat} {st : SuffixTree} {cur : Cursor} {st' : SuffixTree}
      {cur' : Cursor},
      st.sentinelInv → ps.Pairwise (· < ·) → (∀ p ∈ ps, cur.pos ≤ p) →
      SuffixTree.buildSteps cfuel fuel ps (st, cur) = .ok (st', cur') →
      st'.sentinelInv := by
  intro ps
  induction ps with
  | nil =>
    intro st cur st' cur' hs hsort hbound h
    rw [SuffixTree.buildSteps] at h
    have h' := Except.ok.inj h
    simp only [Prod.mk.injEq] at h'
    obtain ⟨rfl, -⟩ := h'
    exact hs
  | cons p ps ih =>
    intro st cur st' cur' hs hsort hbound h
    rw [SuffixTree.buildSteps] at h
    obtain ⟨sc, hup, h⟩ := bind_eq_ok.mp h
    obtain ⟨st1, cur1⟩ := sc
    have hps := update_sentinel hs (hbound p (List.mem_cons_self p ps)) hup
    refine ih hps.1 (List.Pairwise.sublist (List.sublist_cons_self p ps) hsort) ?_ h
    intro q hq
    have hpq : p < q := (List.pairwise_cons.mp hsort).1 q hq
    omega

/-- C8: at initialization node 0 exists with all 256 child slots holding the
packed reference to inner node 1, and this persists after every `update` of a
build: no operation ever changes a child slot of node 0. -/
theorem c8_sentinel_nodes :
    (∀ (payload : List Byte) (st0 : SuffixTree),
      SuffixTree.init payload = .ok st0 → st0.sentinelInv) ∧
    (∀ (st st' : SuffixTree) (cfuel fuel : Nat) (cur cur' : Cursor) (ne : Nat),
      st.sentinelInv → cur.pos ≤ ne → st.update cfuel fuel cur ne = .ok (st', cur') →
      st'.sentinelInv ∧
      ∀ nd nd', st.nodes.get? 0 = some nd → st'.nodes.get? 0 = some nd' →
        ∀ c : Byte, nd'.child c = nd.child c) ∧
    (∀ st : SuffixTree, st.sentinelInv →
      ∀ nd, st.nodes.get? 0 = some nd → ∀ c : Byte,
        nd.child c = ⟨2⟩ ∧ (nd.child c).unpack = .Inner 1) ∧
    (∀ (payload : List Byte) (cfuel fuel k : Nat) (st0 st' : SuffixTree)
      (cur' : Cursor),
      SuffixTree.init payload = .ok st0 →
      SuffixTree.buildSteps cfuel fuel (List.range k) (st0, ⟨1, 0⟩) = .ok (st', cur') →
      st'.sentinelInv) := by
  refine ⟨fun payload st0 h => init_sentinel h, ?_, ?_, ?_⟩
  · intro st st' cfuel fuel cur cur' ne hs hpos h
    have hps := update_sentinel hs hpos h
    refine ⟨hps.1, ?_⟩
    intro nd nd' hnd hnd' c
    obtain ⟨nd0, hg0, hch0⟩ := sentinelInv_node0 hs
    rw [hg0] at hnd
    obtain rfl := Option.some.inj hnd
    obtain ⟨nd0', hg0', hch0'⟩ := sentinelInv_node0 hps.1
    rw [hg0'] at hnd'
    obtain rfl := Option.some.inj hnd'
    rw [hch0 c, hch0' c]
  · intro st hs nd hnd c
    obtain ⟨nd0, hg0, hch0⟩ := sentinelInv_node0 hs
    rw [hg0] at hnd
    obtain rfl := Option.some.inj hnd
    exact ⟨hch0 c, by rw [hch0 c, unpack_two]⟩
  · intro payload cfuel fuel k st0 st' cur' hinit hbs
    refine buildSteps_sentinel (init_sentinel hinit) (List.pairwise_lt_range k) ?_ hbs
    intro p hp
    show 0 ≤ p
    omega

set_option smartUnfolding false in
set_option maxRecDepth 400000 in
/-- Witness for `c8_sentinel_nodes`: on the concrete `"aab"` build, node 0's
slots are preserved by the third update and always decode to inner node 1. -/
theorem c8_sentinel_nodes_witness :
    aabTree.sentinelInv ∧
    (aabTop.child 97 = ⟨2⟩ ∧ (aabTop.child 97).unpack = .Inner 1) :=
  ⟨c8_sentinel_nodes.2.2.2 aabPayload 16 16 3
      (match SuffixTree.init aabPayload with
        | .ok st0 => st0
        | .error _ => { payload := [], nodes := [] })
      aabTree ⟨0, 2⟩ rfl rfl,
   c8_sentinel_nodes.2.2.1 aabTree (by decide) aabTop rfl 97⟩

/-! ## Slice and path-spelling lemmas (towards C1 and C2) -/

theorem slice_self (p : List Byte) (a : Nat) : payloadSlice p a a = [] := by
  simp [payloadSlice]

theorem slice_len {p : List Byte} {a b : Nat} (hab : a ≤ b) (hb : b ≤ p.length) :
    (payloadSlice p a b).length = b - a := by
  simp only [payloadSlice, List.length_take, List.length_drop]
  omega

theorem slice_append {p : List Byte} {a b c : Nat} (hab : a ≤ b) (hbc : b ≤ c) :
    payloadSlice p a b ++ payloadSlice p b c = payloadSlice p a c := by
  simp only [payloadSlice]
  have h1 : c - a = (b - a) + (c - b) := by omega
  rw [h1, List.take_add, List.drop_drop]
  have h2 : a + (b - a) = b := by omega
  rw [h2]

theorem label_len_eq (nd : Node) : nd.label_len = nd.«end».val - nd.begin.val := rfl

theorem unpack_leaf_val {r : PackedRef} {o : Nat} (h : r.unpack = .Leaf o) :
    r.val = 2 * o + 1 := by
  rw [PackedRef.unpack] at h
  by_cases he : r.val % 2 = 0
  · rw [if_pos he] at h
    cases h
  · rw [if_neg he] at h
    obtain rfl := NodeRef.Leaf.inj h
    omega

theorem unpack_leaf_is_none {r : PackedRef} {o : Nat} (h : r.unpack = .Leaf o) :
    r.is_none = false := by
  have hv := unpack_leaf_val h
  simp only [PackedRef.is_none, beq_eq_false_iff_ne, ne_eq]
  omega

/-- Unfold the `Leaf` case of `childOk`. -/
theorem childOk_leaf {st : SuffixTree} {d : Nat → Nat} {v : Nat} {nd : Node}
    {c : Byte} {o : Nat} (hco : st.childOk d v nd c)
    (hu : (nd.child c).unpack = .Leaf o) :
    d v ≤ o ∧ o < st.payload.length ∧ st.payload.get? o = some c ∧
    payloadSlice st.payload (o - d v) o
      = payloadSlice st.payload (nd.«end».val - d v) nd.«end».val := by
  rw [SuffixTree.childOk, if_neg (by simp [unpack_leaf_is_none hu])] at hco
  rw [hu] at hco
  exact hco

/-- Unfold the `Inner` case of `childOk`. -/
theorem childOk_inner {st : SuffixTree} {d : Nat → Nat} {v : Nat} {nd : Node}
    {c : Byte} {j : Nat} (hco : st.childOk d v nd c)
    (hnn : (nd.child c).is_none = false) (hu : (nd.child c).unpack = .Inner j) :
    1 ≤ j ∧ ∃ ndj, st.nodes.get? j = some ndj ∧
      1 ≤ ndj.label_len ∧ ndj.begin.val ≤ ndj.«end».val ∧
      ndj.«end».val ≤ st.payload.length ∧ d v ≤ ndj.begin.val ∧
      d j = d v + ndj.label_len ∧ st.payload.get? ndj.begin.val = some c ∧
      payloadSlice st.payload (ndj.begin.val - d v) ndj.begin.val
        = payloadSlice st.payload (nd.«end».val - d v) nd.«end».val := by
  rw [SuffixTree.childOk, if_neg (by simp [hnn])] at hco
  rw [hu] at hco
  obtain ⟨hj1, hco⟩ := hco
  cases hg : st.nodes.get? j with
  | none => rw [hg] at hco; exact hco.elim
  | some ndj =>
    rw [hg] at hco
    exact ⟨hj1, ndj, rfl, hco⟩

theorem spellAlong_nil (st : SuffixTree) (w : Nat) : st.spellAlong w [] = [] := rfl

theorem descend_nil_elim {st : SuffixTree} {w v : Nat}
    (h : st.descend w [] = some v) : v = w :=
  (Option.some.inj h).symm

/-- Invert one step of a successful `descend`. -/
theorem descend_cons_elim {st : SuffixTree} {w v : Nat} {c : Byte} {cs : List Byte}
    (h : st.descend w (c :: cs) = some v) :
    ∃ ndw j, st.nodes.get? w = some ndw ∧ (ndw.child c).is_none = false ∧
      (ndw.child c).unpack = .Inner j ∧ st.descend j cs = some v := by
  rw [SuffixTree.descend] at h
  cases hg : st.nodes.get? w with
  | none => simp only [hg] at h; cases h
  | some ndw =>
    simp only [hg] at h
    cases hni : (ndw.child c).is_none with
    | true => rw [if_pos hni] at h; cases h
    | false =>
      rw [if_neg (by simp [hni])] at h
      cases hu : (ndw.child c).unpack with
      | Leaf o => simp only [hu] at h; cases h
      | Inner j =>
        simp only [hu] at h
        exact ⟨ndw, j, rfl, hni, hu, h⟩

/-- Unfold one step of `spellAlong` along an inner edge. -/
theorem spellAlong_cons {st : SuffixTree} {w : Nat} {c : Byte} {cs : List Byte}
    {ndw : Node} {j : Nat} {ndj : Node}
    (hg : st.nodes.get? w = some ndw) (hu : (ndw.child c).unpack = .Inner j)
    (hj : st.nodes.get? j = some ndj) :
    st.spellAlong w (c :: cs)
      = payloadSlice st.payload ndj.begin.val ndj.«end».val ++ st.spellAlong j cs := by
  rw [SuffixTree.spellAlong]
  simp only [hg, hu, hj]

/-- Along a successful `descend` from a node `w` of index ≥ 1 in an
edge-consistent tree, the arriving node `v` exists, has index ≥ 1 and depth
at least `d w`, and its root path slice extends `w`'s by the spelled labels. -/
theorem descend_spell {st : SuffixTree} {d : Nat → Nat} (hc : st.EdgeConsistent d) :
    ∀ (ks : List Byte) (w v : Nat) (ndw : Node),
      1 ≤ w → st.nodes.get? w = some ndw → st.descend w ks = some v →
      ∃ ndv, st.nodes.get? v = some ndv ∧ 1 ≤ v ∧ d w ≤ d v ∧
        payloadSlice st.payload (ndw.«end».val - d w) ndw.«end».val ++ st.spellAlong w ks
          = payloadSlice st.payload (ndv.«end».val - d v) ndv.«end».val := by
  intro ks
  induction ks with
  | nil =>
    intro w v ndw hw hg h
    obtain rfl := descend_nil_elim h
    exact ⟨ndw, hg, hw, le_refl _, by rw [spellAlong_nil, List.append_nil]⟩
  | cons c cs ih =>
    intro w v ndw hw hg h
    obtain ⟨ndw', j, hg', hnn, hu, hdesc⟩ := descend_cons_elim h
    obtain rfl : ndw = ndw' := by rw [hg] at hg'; exact Option.some.inj hg'
    have hco : st.childOk d w ndw c := hc.2 (w, ndw) (enum_get?.mpr hg) hw c
    obtain ⟨hj1, ndj, hgj, hlen1, hbe, heN, hdb, hdj, hpb, hback⟩ :=
      childOk_inner hco hnn hu
    obtain ⟨ndv, hgv, hv1, hdjv, hspell⟩ := ih j v ndj hj1 hgj hdesc
    have hll : ndj.label_len = ndj.«end».val - ndj.begin.val := label_len_eq ndj
    refine ⟨ndv, hgv, hv1, by omega, ?_⟩
    rw [spellAlong_cons hg hu hgj, ← hspell, ← List.append_assoc]
    congr 1
    rw [← hback, slice_append (by omega) hbe]
    congr 1
    omega

/-- Membership in the leaf-slot enumeration is exactly a successful slot read. -/
theorem mem_allLeafSlots {st : SuffixTree} {v : Nat} {c : Byte} {o : Nat} :
    (v, c, o) ∈ st.allLeafSlots ↔
      ∃ nd, st.nodes.get? v = some nd ∧ (nd.child c).unpack = .Leaf o := by
  constructor
  · intro h
    rw [SuffixTree.allLeafSlots, List.mem_flatten] at h
    obtain ⟨l, hl, hx⟩ := h
    rw [List.mem_map] at hl
    obtain ⟨p, hp, rfl⟩ := hl
    rw [List.mem_filterMap] at hx
    obtain ⟨c', hc', hx⟩ := hx
    cases hu : (p.2.child c').unpack with
    | Inner j => rw [hu] at hx; cases hx
    | Leaf o' =>
      rw [hu] at hx
      have hx' := Option.some.inj hx
      have h1 : p.1 = v := congrArg (fun t => t.1) hx'
      have h2 : c' = c := congrArg (fun t => t.2.1) hx'
      have h3 : o' = o := congrArg (fun t => t.2.2) hx'
      refine ⟨p.2, ?_, ?_⟩
      · rw [← h1]; exact enum_get?.mp hp
      · rw [← h2, hu, h3]
  · rintro ⟨nd, hg, hu⟩
    rw [SuffixTree.allLeafSlots, List.mem_flatten]
    refine ⟨_, List.mem_map.mpr ⟨(v, nd), enum_get?.mpr hg, rfl⟩, ?_⟩
    rw [List.mem_filterMap]
    refine ⟨c, List.mem_finRange c, ?_⟩
    show (match (nd.child c).unpack with
      | .Leaf o' => some (v, c, o')
      | .Inner _ => none) = some (v, c, o)
    rw [hu]

/-- Reading a leaf slot through `slotAt` yields a member of `allLeafSlots`,
reached by the descent. -/
theorem slotAt_mem {st : SuffixTree} {ks : List Byte} {c : Byte} {v o : Nat}
    (h : st.slotAt ks c = some (v, o)) :
    st.descend 1 ks = some v ∧ (v, c, o) ∈ st.allLeafSlots := by
  rw [SuffixTree.slotAt] at h
  cases hd : st.descend 1 ks with
  | none => rw [hd] at h; cases h
  | some v' =>
    rw [hd] at h
    cases hg : st.nodes.get? v' with
    | none => simp only [hg] at h; cases h
    | some nd =>
      simp only [hg] at h
      cases hu : (nd.child c).unpack with
      | Inner j => simp only [hu] at h; cases h
      | Leaf o' =>
        simp only [hu] at h
        have h' := Option.some.inj h
        have h1 : v' = v := congrArg (fun t => t.1) h'
        have h2 : o' = o := congrArg (fun t => t.2) h'
        subst h1
        exact ⟨rfl, mem_allLeafSlots.mpr ⟨nd, hg, by rw [hu, h2]⟩⟩

set_option smartUnfolding false in
set_option maxRecDepth 400000 in
/-- C2, counterexample: in the tree built for `"aab"`, the leaf reached from
the root along `"a"` and keyed `'a'` stores offset 1, but the edge labels
from the root down to that leaf concatenate to `"aab"` (the whole payload),
not to `payload[1 .. 3) = "ab"`: the stored leaf offset is the start of the
leaf's final edge label, not of the suffix. -/
theorem c2_counterexample :
    aabTree.slotAt [97] 97 = some (2, 1) ∧
    aabTree.payload.length = 3 ∧
    aabTree.spellAlong 1 [97] ++ payloadSlice aabTree.payload 1 3 = [97, 97, 98] ∧
    payloadSlice aabTree.payload 1 3 = [97, 98] ∧
    aabTree.spellAlong 1 [97] ++ payloadSlice aabTree.payload 1 3
      ≠ payloadSlice aabTree.payload 1 3 := by
  refine ⟨by decide, by decide, by decide, by decide, by decide⟩

/-- C2, amended: in an edge-consistent tree (depth assignment `d`), for the
leaf slot `(v, o)` located by descending from the root along `ks` and reading
the child keyed `c`, concatenating the inner edge labels of the path and the
leaf's final edge label `payload[o .. len)` yields the suffix
`payload[o - d v .. len)` — the stored offset `o` points at the leaf's last
edge, and the suffix start is `o - d v`; the inner labels spell `d v` bytes. -/
theorem c2_path_labels (st : SuffixTree) (d : Nat → Nat) (ks : List Byte)
    (c : Byte) (v o : Nat) (hc : st.EdgeConsistent d)
    (hroot : 1 < st.nodes.length) (hslot : st.slotAt ks c = some (v, o)) :
    st.spellAlong 1 ks ++ payloadSlice st.payload o st.payload.length
      = payloadSlice st.payload (o - d v) st.payload.length ∧
    (st.spellAlong 1 ks).length = d v ∧ d v ≤ o ∧ o < st.payload.length := by
  obtain ⟨hdesc, hmem⟩ := slotAt_mem hslot
  obtain ⟨nd, hgv, hu⟩ := mem_allLeafSlots.mp hmem
  obtain ⟨nd1, hnd1⟩ : ∃ x, st.nodes.get? 1 = some x := by
    cases hg1 : st.nodes.get? 1 with
    | none => rw [List.get?_eq_none] at hg1; omega
    | some x => exact ⟨x, rfl⟩
  obtain ⟨ndv, hgv', hv1, hd1v, hspell⟩ :=
    descend_spell hc ks 1 v nd1 (le_refl 1) hnd1 hdesc
  obtain rfl : nd = ndv := by rw [hgv] at hgv'; exact Option.some.inj hgv'
  have hco : st.childOk d v nd c := hc.2 (v, nd) (enum_get?.mpr hgv) hv1 c
  obtain ⟨hdo, hoN, hchar, hback⟩ := childOk_leaf hco hu
  have hd10 : d 1 = 0 := hc.1
  have hnil : payloadSlice st.payload (nd1.«end».val - d 1) nd1.«end».val = [] := by
    rw [hd10, Nat.sub_zero]; exact slice_self _ _
  rw [hnil, List.nil_append] at hspell
  rw [← hback] at hspell
  refine ⟨?_, ?_, hdo, hoN⟩
  · rw [hspell]
    exact slice_append (by omega) (le_of_lt hoN)
  · rw [hspell, slice_len (by omega) (le_of_lt hoN)]
    omega

set_option smartUnfolding false in
set_option maxRecDepth 400000 in
/-- Witness for `c2_path_labels`: the `"aab"` build, its depth assignment,
and the leaf located by `"a"` then key `'a'` (node 2, stored offset 1): the
path spells the suffix starting at `1 - aabDepth 2 = 0`. -/
theorem c2_path_labels_witness :
    aabTree.slotAt [97] 97 = some (2, 1) ∧
    (aabTree.spellAlong 1 [97] ++ payloadSlice aabTree.payload 1 aabTree.payload.length
        = payloadSlice aabTree.payload (1 - aabDepth 2) aabTree.payload.length ∧
      (aabTree.spellAlong 1 [97]).length = aabDepth 2 ∧
      aabDepth 2 ≤ 1 ∧ 1 < aabTree.payload.length) :=
  ⟨by decide,
    c2_path_labels aabTree aabDepth [97] 97 2 1 (by decide) (by decide) (by decide)⟩

